import Mathlib

/-!
Verification of fast-circular-dependency-plugin.

The pipeline of `src/index.ts` is embedded shallowly: a build pass ingests
a table of webpack modules into a dependency graph keyed by absolute
resource paths, runs the cycle finder over it, filters each cycle with the
include/exclude predicates, and reports the survivors either through a
custom detection callback or as default warning/error diagnostics.

The cycle finder itself is the external tarjan-graph npm package, whose
source is not part of this repository; it is modelled from the spec
(sections 2, 3, 4.2 and 9): vertices are created on first reference, edges
collapse under set semantics, and getCycles returns each strongly connected
component of size greater than one (or carrying a self-loop) with members
in reverse depth-first-encounter order, components in encounter order.
Regular-expression options are treated as predicates over strings, and the
host path library's relative-path rendering is an explicit parameter.
-/

/-- A webpack dependency record as seen by the plugin: an optional handle
resolved by the host module graph (modelled as a position in the pass's
module table; `none` is an unresolved dependency) and the async/weak flag. -/
structure Dep where
  target : Option Nat
  weak : Bool
deriving DecidableEq, Repr

/-- A webpack module as seen by the plugin: its identity (reference equality
in the source is modelled by `id`), whether it is a NormalModule, its
optional absolute resource path, and its dependency list. -/
structure NModule where
  id : Nat
  isNormal : Bool
  resource : Option String
  dependencies : List Dep
deriving DecidableEq, Repr

/-- Host moduleGraph.getModule: resolves a dependency's handle to a module
of the pass's table. -/
def getModule (table : List NModule) (t : Option Nat) : Option NModule :=
  t.bind (fun j => table[j]?)

/-- Modelled from the spec: the vertex/adjacency store of the external
tarjan-graph library. `keys` lists vertices in creation order; `succs`
gives each vertex's successor list (empty for unknown vertices). -/
structure TGraph where
  keys : List String
  succs : String → List String

def TGraph.succOf (g : TGraph) (k : String) : List String := g.succs k

def emptyTGraph : TGraph := ⟨[], fun _ => []⟩

/-- Modelled from the spec: a vertex is created the first time it is
referenced (spec section 3). -/
def ensureVertex (g : TGraph) (k : String) : TGraph :=
  if k ∈ g.keys then g else { g with keys := g.keys ++ [k] }

def setSucc (g : TGraph) (k : String) (l : List String) : TGraph :=
  { g with succs := fun k' => if k' = k then l else g.succs k' }

/-- Appending one edge from `key` unless it is already present: multiple
edges between the same pair collapse to one (spec section 3). -/
def pushEdge (key : String) (g : TGraph) (d : String) : TGraph :=
  if d ∈ g.succOf key then g else setSucc g key (g.succOf key ++ [d])

/-- Modelled from the spec: Graph.add of the external tarjan-graph library.
Descendant vertices are created first, then the key's vertex, and each
descendant is appended to the key's successor list unless already present. -/
def TGraph.add (g : TGraph) (key : String) (descendants : List String) : TGraph :=
  let g := descendants.foldl ensureVertex g
  let g := ensureVertex g key
  descendants.foldl (pushEdge key) g

/-- Modelled from the spec: fuelled depth-first traversal (spec section 4.2);
returns the visited list extended in encounter order. A fuel of one more
than the number of vertices is always sufficient. -/
def dfsFrom (g : TGraph) : Nat → String → List String → List String
  | 0, _, visited => visited
  | fuel + 1, v, visited =>
    if v ∈ visited then visited
    else (g.succOf v).foldl (fun vis w => dfsFrom g fuel w vis) (visited ++ [v])

def graphFuel (g : TGraph) : Nat := g.keys.length + 1

/-- Modelled from the spec: the depth-first encounter order of the whole
graph, roots taken in vertex creation order (spec section 4.2). -/
def preorder (g : TGraph) : List String :=
  g.keys.foldl (fun vis v => dfsFrom g (graphFuel g) v vis) []

/-- Vertices reachable from `a` (the depth-first traversal starting at `a`
alone visits exactly the reachable vertices). -/
def reachList (g : TGraph) (a : String) : List String :=
  dfsFrom g (graphFuel g) a []

/-- Members of the strongly connected component of `v`, in depth-first
encounter order: vertices mutually reachable with `v`. -/
def sccMembers (g : TGraph) (v : String) : List String :=
  (preorder g).filter (fun w => decide (w ∈ reachList g v) && decide (v ∈ reachList g w))

def hasSelfLoop (g : TGraph) (v : String) : Bool := decide (v ∈ g.succOf v)

/-- Modelled from the spec: getCycles of the external tarjan-graph library.
Strongly connected components of size greater than one, or with a
self-loop, are kept (spec section 2); each is emitted with its members in
reverse depth-first-encounter order (the wrapper in src/index.ts reverses
them back, spec section 9), components in first-encounter order. -/
def TGraph.getCycles (g : TGraph) : List (List String) :=
  ((preorder g).foldl (fun (acc : List (List String) × List String) v =>
    if v ∈ acc.2 then acc
    else
      let scc := sccMembers g v
      if 1 < scc.length || hasSelfLoop g v then
        (acc.1 ++ [scc.reverse], acc.2 ++ scc)
      else
        (acc.1, acc.2 ++ scc)) ([], [])).1

/-- What a custom onDetected callback invocation does to the compilation:
the warnings and errors collections it leaves behind (it receives the
compilation object and may mutate both), and the failure it throws, if any. -/
structure DetectedOutcome where
  newWarnings : List String
  newErrors : List String
  thrown : Option String

/-- Plugin options (src/index.ts constructor). The regular expressions are
modelled as predicates over strings; callbacks receive the current
warnings/errors collections in place of the compilation object. -/
structure Options where
  excludeTest : String → Bool
  includeTest : String → Bool
  failOnError : Bool
  allowAsyncCycles : Bool
  onDetected : Option (List String → List String × List String → DetectedOutcome)
  onStart : Option (List String × List String → List String × List String)
  onEnd : Option (List String × List String → List String × List String)
  cwd : String

/-- The options record produced by the constructor when no options are
given (src/index.ts lines 38-48); exclude matches nothing, include matches
everything, and the working directory is host state passed in here. -/
def defaultOptions (cwd : String) : Options :=
  { excludeTest := fun _ => false
    includeTest := fun _ => true
    failOnError := false
    allowAsyncCycles := false
    onDetected := none
    onStart := none
    onEnd := none
    cwd := cwd }

/-- Stages of one optimizeModules pass, recorded as a trace. The member
lists carried by the per-cycle events are the absolute resource paths of
the cycle as produced by the finder. -/
inductive PassEvent where
  | started
  | ingested
  | cycleSuppressed (members : List String)
  | cycleReported (members : List String)
  | ended
deriving DecidableEq, Repr

/-- Observable state of one pass: the compilation's warnings and errors
collections (messages), the sequence of onDetected invocations (the paths
argument of each call, in call order), and the stage trace. -/
structure PassState where
  warnings : List String
  errors : List String
  invocations : List (List String)
  events : List PassEvent
deriving DecidableEq, Repr

def defaultMessage (paths : List String) : String :=
  "Circular dependency detected:\r\n " ++ String.intercalate " -> " paths

/-- The rendered, closed path list of a cycle (src/index.ts lines 94-95):
members mapped through path.relative and reversed, then closed by
repeating the first entry. -/
def closeRender (rel : String → String → String) (cwd : String) (cycle : List String) :
    List String :=
  let cycleModulePaths := (cycle.map (fun vertex => rel cwd vertex)).reverse
  cycleModulePaths ++ [cycleModulePaths.headD ""]

/-- The filter decision of src/index.ts lines 87-89: a cycle is dropped
when every member's absolute path matches exclude or fails include. -/
def everyPartExcluded (opts : Options) (cycle : List String) : Bool :=
  cycle.all (fun vertex => opts.excludeTest vertex || !opts.includeTest vertex)

/-- Processing of one cycle coming out of the finder
(src/index.ts lines 86-116). -/
def processCycle (opts : Options) (rel : String → String → String)
    (st : PassState) (cycle : List String) : PassState :=
  if everyPartExcluded opts cycle then
    { st with events := st.events ++ [PassEvent.cycleSuppressed cycle] }
  else
    let cycleModulePaths := closeRender rel opts.cwd cycle
    match opts.onDetected with
    | some onDetected =>
      let outcome := onDetected cycleModulePaths (st.warnings, st.errors)
      { st with
        warnings := outcome.newWarnings
        errors := outcome.newErrors ++ outcome.thrown.toList
        invocations := st.invocations ++ [cycleModulePaths]
        events := st.events ++ [PassEvent.cycleReported cycle] }
    | none =>
      let errorMessage := defaultMessage cycleModulePaths
      if opts.failOnError then
        { st with errors := st.errors ++ [errorMessage],
                  events := st.events ++ [PassEvent.cycleReported cycle] }
      else
        { st with warnings := st.warnings ++ [errorMessage],
                  events := st.events ++ [PassEvent.cycleReported cycle] }

/-- The contribution of one dependency of module `m` to its dependency
resource list (src/index.ts lines 65-82): the host resolves the
dependency; a self reference, an unresolved, non-normal or resourceless
target contributes nothing, nor does a weak dependency when
allowAsyncCycles is set. -/
def depResource (table : List NModule) (allowAsyncCycles : Bool)
    (m : NModule) (dependency : Dep) : Option String :=
  match getModule table dependency.target with
  | none => none
  | some dependencyModule =>
    if dependencyModule.id == m.id then none
    else if !dependencyModule.isNormal then none
    else
      match dependencyModule.resource with
      | none => none
      | some res =>
        if allowAsyncCycles && dependency.weak then none else some res

/-- Resources of a module's valid dependencies (src/index.ts lines 63-82). -/
def collectDependencyResources (table : List NModule) (allowAsyncCycles : Bool)
    (m : NModule) : List String :=
  m.dependencies.filterMap (depResource table allowAsyncCycles m)

/-- Graph accumulation of one pass (src/index.ts lines 56-84): modules that
are not NormalModules, have no resource or have no dependencies are
skipped; each surviving module contributes one add call keyed by its
resource. -/
def buildGraph (allowAsyncCycles : Bool) (table : List NModule) : TGraph :=
  table.foldl (fun g m =>
    if !m.isNormal then g
    else
      match m.resource with
      | none => g
      | some res =>
        if m.dependencies.length == 0 then g
        else g.add res (collectDependencyResources table allowAsyncCycles m)) emptyTGraph

def applyStartHook (opts : Options) (st : PassState) : PassState :=
  match opts.onStart with
  | some f =>
    let we := f (st.warnings, st.errors)
    { st with warnings := we.1, errors := we.2, events := st.events ++ [PassEvent.started] }
  | none => { st with events := st.events ++ [PassEvent.started] }

def applyEndHook (opts : Options) (st : PassState) : PassState :=
  match opts.onEnd with
  | some f =>
    let we := f (st.warnings, st.errors)
    { st with warnings := we.1, errors := we.2, events := st.events ++ [PassEvent.ended] }
  | none => { st with events := st.events ++ [PassEvent.ended] }

/-- One whole optimizeModules pass (src/index.ts lines 53-119): onStart,
graph ingestion, cycle processing in finder order, onEnd. -/
def runPass (opts : Options) (rel : String → String → String)
    (table : List NModule) : PassState :=
  let st := applyStartHook opts
    { warnings := [], errors := [], invocations := [], events := [] }
  let graph := buildGraph opts.allowAsyncCycles table
  let st := { st with events := st.events ++ [PassEvent.ingested] }
  let st := graph.getCycles.foldl (processCycle opts rel) st
  applyEndHook opts st

/-- The input family of claim C1: an acyclic chain of modules `ps` leading
into an elementary cycle `cs`; module i depends on module i+1, and the
last cycle module depends back on the first cycle module. Ids are
positions, every module is a NormalModule with its name as resource. -/
def chainCycleModules (ps cs : List String) : List NModule :=
  let names := ps ++ cs
  (List.range names.length).map (fun i =>
    { id := i
      isNormal := true
      resource := some (names.getD i "")
      dependencies := [⟨some (if i == names.length - 1 then ps.length else i + 1), false⟩] })

/-- One edge registration, for describing graph accumulation pairwise. -/
def addPair (g : TGraph) (pr : String × String) : TGraph := g.add pr.1 [pr.2]

/-- The successive edges of a walk through `l` that then leaves to `z`. -/
def pairsOf : List String → String → List (String × String)
  | [], _ => []
  | [a], z => [(a, z)]
  | a :: b :: r, z => (a, b) :: pairsOf (b :: r) z

/-- Each member of the list has exactly its successor in the list as its
sole graph successor: the walk shape the fuelled traversal follows. -/
def succChain (g : TGraph) : List String → Prop
  | a :: b :: r => g.succOf a = [b] ∧ succChain g (b :: r)
  | _ => True

/-- Two distinct modules sharing one resource path and forming a
resolution from the first to the second: the graph node of path "a" then
depends on itself even though neither module depends on itself. -/
def selfResourceTable : List NModule :=
  [⟨0, true, some "a", [⟨some 1, false⟩]⟩, ⟨1, true, some "a", []⟩]

/-- The closed module list of a found cycle in the variant of
src/unnamed/part_001 (ModulesGraph.getPath, lines 48-51): the members
looked up in the module array, closed by repeating the first member. -/
def getPathP1 (marr : List NModule) (ids : List Nat) : List (Option NModule) :=
  ids.map (fun i => marr[i]?) ++ [ids.head?.bind (fun i => marr[i]?)]

/-- The absolute resource paths of a cycle in the part_001 variant
(line 119): resources of the closed module list, missing ones dropped. -/
def absPathsP1 (marr : List NModule) (ids : List Nat) : List String :=
  (getPathP1 marr ids).filterMap (fun om => om.bind (fun m => m.resource))

/-- The filter decision of the part_001 variant (lines 120-122). -/
def everyPartExcludedP1 (opts : Options) (marr : List NModule) (ids : List Nat) : Bool :=
  (absPathsP1 marr ids).all (fun p => opts.excludeTest p || !opts.includeTest p)

/-- Observable state of the part_001 variant's reporting loop: the
diagnostics collections, the onDetected invocations each carrying the
origin module reference and the paths argument, and the default
diagnostics synthesized (a trace of the non-callback branch). -/
structure ReportStateP1 where
  warnings : List String
  errors : List String
  invocations : List (Option NModule × List String)
  defaults : List String
deriving DecidableEq, Repr

/-- Processing of one found cycle in the part_001 variant (lines 117-146):
the callback receives the rendered closed path list and the origin module
graph.modules[cycle[0]]; without a callback a default diagnostic is
synthesized. -/
def processCycleP1 (opts : Options) (rel : String → String → String)
    (marr : List NModule) (st : ReportStateP1) (cyc : List Nat) : ReportStateP1 :=
  if everyPartExcludedP1 opts marr cyc then st
  else
    let cycleModulePaths := (absPathsP1 marr cyc).map (rel opts.cwd)
    match opts.onDetected with
    | some onDetected =>
      let outcome := onDetected cycleModulePaths (st.warnings, st.errors)
      { st with
        warnings := outcome.newWarnings
        errors := outcome.newErrors ++ outcome.thrown.toList
        invocations := st.invocations ++ [(cyc.head?.bind (fun i => marr[i]?), cycleModulePaths)] }
    | none =>
      let msg := defaultMessage cycleModulePaths
      if opts.failOnError then
        { st with errors := st.errors ++ [msg], defaults := st.defaults ++ [msg] }
      else
        { st with warnings := st.warnings ++ [msg], defaults := st.defaults ++ [msg] }

/-- The reporting loop of the part_001 variant over the found cycles. -/
def reportLoopP1 (opts : Options) (rel : String → String → String)
    (marr : List NModule) (st : ReportStateP1) (cycles : List (List Nat)) : ReportStateP1 :=
  cycles.foldl (processCycleP1 opts rel marr) st

/-- Resource injectivity: distinct normal modules of the table never share
a resource path. -/
def ResourceInjective (table : List NModule) : Prop :=
  ∀ m₁ ∈ table, ∀ m₂ ∈ table, m₁.isNormal = true → m₂.isNormal = true →
    m₁.resource ≠ none → m₁.resource = m₂.resource → m₁.id = m₂.id

instance (table : List NModule) : Decidable (ResourceInjective table) := by
  unfold ResourceInjective
  infer_instance

/-! ## Basic facts about the graph store -/

theorem succOf_ensureVertex (g : TGraph) (x k : String) :
    (ensureVertex g x).succOf k = g.succOf k := by
  unfold ensureVertex TGraph.succOf
  split <;> rfl

theorem keys_ensureVertex (g : TGraph) (x : String) :
    (ensureVertex g x).keys = if x ∈ g.keys then g.keys else g.keys ++ [x] := by
  unfold ensureVertex
  split <;> simp_all

theorem mem_keys_ensureVertex (g : TGraph) (x y : String) :
    y ∈ (ensureVertex g x).keys ↔ y ∈ g.keys ∨ y = x := by
  rw [keys_ensureVertex]
  split <;> rename_i h <;> simp_all

theorem succOf_setSucc_self (g : TGraph) (k : String) (l : List String) :
    (setSucc g k l).succOf k = l := by
  simp [setSucc, TGraph.succOf]

theorem succOf_setSucc_ne (g : TGraph) (k k' : String) (l : List String) (h : k' ≠ k) :
    (setSucc g k l).succOf k' = g.succOf k' := by
  simp [setSucc, TGraph.succOf, h]

theorem keys_setSucc (g : TGraph) (k : String) (l : List String) :
    (setSucc g k l).keys = g.keys := rfl

theorem keys_pushEdge (key : String) (g : TGraph) (d : String) :
    (pushEdge key g d).keys = g.keys := by
  unfold pushEdge
  split <;> rfl

theorem succOf_pushEdge_ne (key : String) (g : TGraph) (d k : String) (h : k ≠ key) :
    (pushEdge key g d).succOf k = g.succOf k := by
  unfold pushEdge
  split
  · rfl
  · exact succOf_setSucc_ne _ _ _ _ h

theorem succOf_pushEdge_key (key : String) (g : TGraph) (d : String) :
    (pushEdge key g d).succOf key
      = if d ∈ g.succOf key then g.succOf key else g.succOf key ++ [d] := by
  unfold pushEdge
  split <;> simp_all [succOf_setSucc_self]

theorem succOf_foldl_ensure (ds : List String) (g : TGraph) (k : String) :
    (ds.foldl ensureVertex g).succOf k = g.succOf k := by
  induction ds generalizing g with
  | nil => rfl
  | cons d ds ih => simpa [ih] using succOf_ensureVertex g d k

theorem keys_foldl_pushEdge (key : String) (ds : List String) (g : TGraph) :
    (ds.foldl (pushEdge key) g).keys = g.keys := by
  induction ds generalizing g with
  | nil => rfl
  | cons d ds ih => simp [ih, keys_pushEdge]

theorem succOf_foldl_pushEdge_ne (key : String) (ds : List String) (g : TGraph)
    (k : String) (h : k ≠ key) :
    (ds.foldl (pushEdge key) g).succOf k = g.succOf k := by
  induction ds generalizing g with
  | nil => rfl
  | cons d ds ih => simp [ih, succOf_pushEdge_ne _ _ _ _ h]

theorem mem_keys_foldl_ensure (ds : List String) (g : TGraph) (y : String) :
    y ∈ (ds.foldl ensureVertex g).keys ↔ y ∈ g.keys ∨ y ∈ ds := by
  induction ds generalizing g with
  | nil => simp
  | cons d ds ih =>
    simp only [List.foldl_cons, ih, mem_keys_ensureVertex, List.mem_cons]
    tauto

theorem succOf_add_ne (g : TGraph) (key : String) (ds : List String) (k : String)
    (h : k ≠ key) : (g.add key ds).succOf k = g.succOf k := by
  unfold TGraph.add
  rw [succOf_foldl_pushEdge_ne _ _ _ _ h, succOf_ensureVertex, succOf_foldl_ensure]

theorem mem_keys_add (g : TGraph) (key : String) (ds : List String) (y : String) :
    y ∈ (g.add key ds).keys ↔ y ∈ g.keys ∨ y ∈ ds ∨ y = key := by
  unfold TGraph.add
  rw [keys_foldl_pushEdge, mem_keys_ensureVertex, mem_keys_foldl_ensure]
  tauto

/-! ## Set semantics and self-edge facts about accumulation (claims C8, C4) -/

theorem foldl_pushEdge_nodup (key : String) (ds : List String) (g : TGraph)
    (h : ∀ k, (g.succOf k).Nodup) : ∀ k, ((ds.foldl (pushEdge key) g).succOf k).Nodup := by
  induction ds generalizing g with
  | nil => exact h
  | cons d ds ih =>
    refine ih _ (fun k => ?_)
    by_cases hk : k = key
    · subst hk
      rw [succOf_pushEdge_key]
      split <;> rename_i hd
      · exact h k
      · simp [List.nodup_append, List.disjoint_singleton, h k, hd]
    · rw [succOf_pushEdge_ne _ _ _ _ hk]; exact h k

theorem add_nodup (g : TGraph) (key : String) (ds : List String)
    (h : ∀ k, (g.succOf k).Nodup) : ∀ k, ((g.add key ds).succOf k).Nodup := by
  unfold TGraph.add
  refine foldl_pushEdge_nodup _ _ _ (fun k => ?_)
  rw [succOf_ensureVertex, succOf_foldl_ensure]
  exact h k

theorem foldl_pushEdge_no_self (key : String) (ds : List String) (g : TGraph)
    (hkd : key ∉ ds) (h : ∀ k, k ∉ g.succOf k) :
    ∀ k, k ∉ (ds.foldl (pushEdge key) g).succOf k := by
  induction ds generalizing g with
  | nil => exact h
  | cons d ds ih =>
    refine ih _ (fun hmem => hkd (List.mem_cons_of_mem d hmem)) (fun k => ?_)
    by_cases hk : k = key
    · subst hk
      rw [succOf_pushEdge_key]
      split
      · exact h k
      · have hne : k ≠ d := fun he => hkd (he ▸ List.mem_cons_self _ _)
        simp [h k, hne]
    · rw [succOf_pushEdge_ne _ _ _ _ hk]; exact h k

theorem add_no_self (g : TGraph) (key : String) (ds : List String)
    (hkd : key ∉ ds) (h : ∀ k, k ∉ g.succOf k) :
    ∀ k, k ∉ (g.add key ds).succOf k := by
  unfold TGraph.add
  refine foldl_pushEdge_no_self _ _ _ hkd (fun k => ?_)
  rw [succOf_ensureVertex, succOf_foldl_ensure]
  exact h k

theorem buildGraph_step_nodup (table : List NModule) (allowAsyncCycles : Bool)
    (rest : List NModule) (g : TGraph) (h : ∀ k, (g.succOf k).Nodup) :
    ∀ k, (((rest.foldl (fun g m =>
      if !m.isNormal then g
      else
        match m.resource with
        | none => g
        | some res =>
          if m.dependencies.length == 0 then g
          else g.add res (collectDependencyResources table allowAsyncCycles m)) g)).succOf k).Nodup := by
  induction rest generalizing g with
  | nil => exact h
  | cons m rest ih =>
    refine ih _ ?_
    dsimp only
    split
    · exact h
    · split
      · exact h
      · split
        · exact h
        · exact add_nodup _ _ _ h

/-- Claim C8: after accumulation, every successor list of the graph is
duplicate free — registering the same dependency pair repeatedly collapses
to one edge. -/
theorem buildGraph_edges_nodup (allowAsyncCycles : Bool) (table : List NModule)
    (k : String) : ((buildGraph allowAsyncCycles table).succOf k).Nodup := by
  unfold buildGraph
  exact buildGraph_step_nodup table allowAsyncCycles table emptyTGraph
    (fun _ => List.nodup_nil) k

theorem mem_collect_resources (table : List NModule) (allowAsyncCycles : Bool)
    (m : NModule) (r : String) (h : r ∈ collectDependencyResources table allowAsyncCycles m) :
    ∃ dm, dm ∈ table ∧ dm.id ≠ m.id ∧ dm.isNormal = true ∧ dm.resource = some r := by
  unfold collectDependencyResources at h
  obtain ⟨dep, -, hd⟩ := List.mem_filterMap.mp h
  unfold depResource at hd
  split at hd
  · exact absurd hd (by simp)
  · rename_i dm hdm
    have hmem : dm ∈ table := by
      unfold getModule at hdm
      cases ht : dep.target with
      | none => rw [ht] at hdm; exact absurd hdm (by simp)
      | some j => rw [ht] at hdm; exact List.getElem?_mem hdm
    split at hd
    · exact absurd hd (by simp)
    · split at hd
      · exact absurd hd (by simp)
      · rename_i hid hnorm
        split at hd
        · exact absurd hd (by simp)
        · rename_i res hres
          split at hd
          · exact absurd hd (by simp)
          · refine ⟨dm, hmem, by simpa using hid, by simpa using hnorm, ?_⟩
            rw [hres]
            have : res = r := by simpa using hd
            rw [this]

theorem buildGraph_step_no_self (table : List NModule) (allowAsyncCycles : Bool)
    (hinj : ResourceInjective table) (rest : List NModule) (hrest : ∀ m ∈ rest, m ∈ table)
    (g : TGraph) (h : ∀ k, k ∉ g.succOf k) :
    ∀ k, k ∉ ((rest.foldl (fun g m =>
      if !m.isNormal then g
      else
        match m.resource with
        | none => g
        | some res =>
          if m.dependencies.length == 0 then g
          else g.add res (collectDependencyResources table allowAsyncCycles m)) g)).succOf k := by
  induction rest generalizing g with
  | nil => exact h
  | cons m rest ih =>
    refine ih (fun x hx => hrest x (List.mem_cons_of_mem m hx)) _ ?_
    dsimp only
    split
    · exact h
    · rename_i hnorm
      split
      · exact h
      · rename_i res hres
        split
        · exact h
        · refine add_no_self _ _ _ (fun hmem => ?_) h
          obtain ⟨dm, hdm, hne, hdn, hdr⟩ :=
            mem_collect_resources table allowAsyncCycles m res hmem
          have hm : m ∈ table := hrest m (List.mem_cons_self _ _)
          have : m.id = dm.id := by
            refine hinj m hm dm hdm ?_ hdn (by rw [hres]; simp) (by rw [hres, hdr])
            simpa using hnorm
          exact hne this.symm

theorem buildGraph_no_self (allowAsyncCycles : Bool) (table : List NModule)
    (hinj : ResourceInjective table) :
    ∀ k, k ∉ (buildGraph allowAsyncCycles table).succOf k := by
  unfold buildGraph
  exact buildGraph_step_no_self table allowAsyncCycles hinj table (fun _ h => h)
    emptyTGraph (fun k h => List.not_mem_nil k h)

theorem getCycles_fold_length (g : TGraph) (hnl : ∀ v, hasSelfLoop g v = false) :
    ∀ (l : List String) (acc : List (List String) × List String),
      (∀ c ∈ acc.1, 2 ≤ c.length) →
      ∀ c ∈ (l.foldl (fun (acc : List (List String) × List String) v =>
        if v ∈ acc.2 then acc
        else
          let scc := sccMembers g v
          if 1 < scc.length || hasSelfLoop g v then
            (acc.1 ++ [scc.reverse], acc.2 ++ scc)
          else
            (acc.1, acc.2 ++ scc)) acc).1, 2 ≤ c.length := by
  intro l
  induction l with
  | nil => intro acc hacc; exact hacc
  | cons v l ih =>
    intro acc hacc
    refine ih _ ?_
    dsimp only
    split
    · exact hacc
    · split
      · rename_i hlen
        intro c hc
        rcases List.mem_append.mp hc with hc | hc
        · exact hacc c hc
        · have hc' : c = (sccMembers g v).reverse := by simpa using hc
        
          rw [hc', List.length_reverse]
          rw [hnl v] at hlen
          simpa using Nat.succ_le_of_lt (by simpa using hlen)
      · exact hacc

theorem getCycles_min_length (g : TGraph) (hnl : ∀ v, v ∉ g.succOf v) :
    ∀ c ∈ g.getCycles, 2 ≤ c.length := by
  unfold TGraph.getCycles
  refine getCycles_fold_length g (fun v => ?_) _ _ (by simp)
  simp [hasSelfLoop, hnl v]

/-- Claim C4, amended: a dependency resolving back to its own module is
never registered as an edge; provided distinct normal modules carry
distinct resource paths, the accumulated graph has no self-edge at all and
every found cycle has at least two members. -/
theorem no_single_node_cycles (allowAsyncCycles : Bool) (table : List NModule)
    (hinj : ResourceInjective table) :
    (∀ k, k ∉ (buildGraph allowAsyncCycles table).succOf k)
    ∧ (∀ c ∈ (buildGraph allowAsyncCycles table).getCycles, 2 ≤ c.length) := by
  have h := buildGraph_no_self allowAsyncCycles table hinj
  exact ⟨h, getCycles_min_length _ h⟩

/-- Witness for the amended claim C4 at the concrete d, e, f, g scenario. -/
theorem no_single_node_cycles_witness :
    ResourceInjective (chainCycleModules ["d"] ["e", "f", "g"])
    ∧ "e" ∉ (buildGraph false (chainCycleModules ["d"] ["e", "f", "g"])).succOf "e" := by
  refine ⟨by decide, ?_⟩
  exact (no_single_node_cycles false _ (by decide)).1 "e"

/-- Counterexample to claim C4 as stated: two distinct modules sharing the
resource path "a", one resolving a dependency to the other. No module
depends on itself, yet the graph holds the self-edge "a" -> "a" and the
pass reports the single-node cycle rendered "a -> a". -/
theorem self_resource_counterexample :
    "a" ∈ (buildGraph false selfResourceTable).succOf "a"
    ∧ (buildGraph false selfResourceTable).getCycles = [["a"]]
    ∧ (runPass (defaultOptions "") (fun _ p => p) selfResourceTable).warnings
      = [defaultMessage ["a", "a"]]
    ∧ ¬ (∀ c ∈ (buildGraph false selfResourceTable).getCycles, 2 ≤ c.length) := by
  decide

/-! ## Per-cycle processing (claims C2, C3, C5) -/

theorem processCycle_suppressed (opts : Options) (rel : String → String → String)
    (st : PassState) (cycle : List String) (h : everyPartExcluded opts cycle = true) :
    processCycle opts rel st cycle
      = { st with events := st.events ++ [PassEvent.cycleSuppressed cycle] } := by
  unfold processCycle
  simp [h]

theorem processCycle_callback (opts : Options) (rel : String → String → String)
    (st : PassState) (cycle : List String)
    (f : List String → List String × List String → DetectedOutcome)
    (hf : opts.onDetected = some f) (hrep : everyPartExcluded opts cycle = false) :
    processCycle opts rel st cycle
      = { st with
          warnings := (f (closeRender rel opts.cwd cycle) (st.warnings, st.errors)).newWarnings
          errors := (f (closeRender rel opts.cwd cycle) (st.warnings, st.errors)).newErrors
            ++ (f (closeRender rel opts.cwd cycle) (st.warnings, st.errors)).thrown.toList
          invocations := st.invocations ++ [closeRender rel opts.cwd cycle]
          events := st.events ++ [PassEvent.cycleReported cycle] } := by
  unfold processCycle
  rw [hrep, hf]
  simp

theorem processCycle_default (opts : Options) (rel : String → String → String)
    (st : PassState) (cycle : List String)
    (hf : opts.onDetected = none) (hrep : everyPartExcluded opts cycle = false) :
    processCycle opts rel st cycle
      = if opts.failOnError then
          { st with errors := st.errors ++ [defaultMessage (closeRender rel opts.cwd cycle)],
                    events := st.events ++ [PassEvent.cycleReported cycle] }
        else
          { st with warnings := st.warnings ++ [defaultMessage (closeRender rel opts.cwd cycle)],
                    events := st.events ++ [PassEvent.cycleReported cycle] } := by
  unfold processCycle
  rw [hrep, hf]
  simp

/-- Claim C2: a cycle leaves the diagnostics collections and the callback
invocation list untouched exactly when every member's absolute path
matches exclude or fails include; and a cycle with one surviving member is
reported in full — the closed path list carries every member's rendered
path, those matching exclude included — whichever reporting mode is
configured. -/
theorem cycle_suppression_iff (opts : Options) (rel : String → String → String)
    (st : PassState) (cycle : List String) :
    (((processCycle opts rel st cycle).warnings = st.warnings
      ∧ (processCycle opts rel st cycle).errors = st.errors
      ∧ (processCycle opts rel st cycle).invocations = st.invocations)
      ↔ everyPartExcluded opts cycle = true)
    ∧ (everyPartExcluded opts cycle = false →
        (∀ v ∈ cycle, rel opts.cwd v ∈ closeRender rel opts.cwd cycle)
        ∧ (∀ f, opts.onDetected = some f →
            (processCycle opts rel st cycle).invocations
              = st.invocations ++ [closeRender rel opts.cwd cycle])
        ∧ (opts.onDetected = none →
            (if opts.failOnError then (processCycle opts rel st cycle).errors
                = st.errors ++ [defaultMessage (closeRender rel opts.cwd cycle)]
              else (processCycle opts rel st cycle).warnings
                = st.warnings ++ [defaultMessage (closeRender rel opts.cwd cycle)]))) := by
  constructor
  · constructor
    · rintro ⟨hw, he, hi⟩
      by_contra hsup
      rw [Bool.not_eq_true] at hsup
      cases hd : opts.onDetected with
      | some f =>
        rw [processCycle_callback opts rel st cycle f hd hsup] at hi
        simpa using congrArg List.length hi
      | none =>
        rw [processCycle_default opts rel st cycle hd hsup] at hw he
        by_cases hfe : opts.failOnError
        · rw [if_pos hfe] at he
          simpa using congrArg List.length he
        · rw [if_neg hfe] at hw
          simpa using congrArg List.length hw
    · intro h
      rw [processCycle_suppressed opts rel st cycle h]
      exact ⟨rfl, rfl, rfl⟩
  · intro hrep
    refine ⟨?_, ?_, ?_⟩
    · intro v hv
      unfold closeRender
      simp only [List.mem_append, List.mem_reverse, List.mem_map]
      exact Or.inl ⟨v, hv, rfl⟩
    · intro f hf
      rw [processCycle_callback opts rel st cycle f hf hrep]
    · intro hf
      rw [processCycle_default opts rel st cycle hf hrep]
      split <;> simp

/-- Witness for claim C2's conditional part at a concrete reportable
cycle. -/
theorem cycle_suppression_iff_witness :
    everyPartExcluded (defaultOptions "") ["b", "a"] = false
    ∧ (processCycle (defaultOptions "") (fun _ p => p)
        ⟨[], [], [], []⟩ ["b", "a"]).warnings = [defaultMessage ["a", "b", "a"]] := by
  refine ⟨by decide, ?_⟩
  have h := (cycle_suppression_iff (defaultOptions "") (fun _ p => p)
    ⟨[], [], [], []⟩ ["b", "a"]).2 (by decide)
  simpa using h.2.2 rfl

/-- Claim C3: with no custom callback, a reportable cycle produces exactly
one diagnostic, whose message is exactly the default message over the
rendered closed path list, appended to errors when failOnError holds and
to warnings otherwise, everything else unchanged. -/
theorem default_diagnostic_routing (opts : Options) (rel : String → String → String)
    (st : PassState) (cycle : List String)
    (hf : opts.onDetected = none) (hrep : everyPartExcluded opts cycle = false) :
    processCycle opts rel st cycle
      = if opts.failOnError then
          { st with errors := st.errors ++ [defaultMessage (closeRender rel opts.cwd cycle)],
                    events := st.events ++ [PassEvent.cycleReported cycle] }
        else
          { st with warnings := st.warnings ++ [defaultMessage (closeRender rel opts.cwd cycle)],
                    events := st.events ++ [PassEvent.cycleReported cycle] } :=
  processCycle_default opts rel st cycle hf hrep

/-- Witness for claim C3 at a concrete cycle under both failOnError
settings. -/
theorem default_diagnostic_routing_witness :
    (processCycle (defaultOptions "") (fun _ p => p) ⟨[], [], [], []⟩ ["b", "a"]).warnings
        = [defaultMessage ["a", "b", "a"]]
    ∧ (processCycle { defaultOptions "" with failOnError := true } (fun _ p => p)
        ⟨[], [], [], []⟩ ["b", "a"]).errors = [defaultMessage ["a", "b", "a"]] := by
  constructor
  · have h := default_diagnostic_routing (defaultOptions "") (fun _ p => p)
      ⟨[], [], [], []⟩ ["b", "a"] rfl (by decide)
    rw [h]
    decide
  · have h := default_diagnostic_routing { defaultOptions "" with failOnError := true }
      (fun _ p => p) ⟨[], [], [], []⟩ ["b", "a"] rfl (by decide)
    rw [h]
    decide

/-! ## The reporting loop over all found cycles -/

theorem loop_events (opts : Options) (rel : String → String → String) :
    ∀ (cycles : List (List String)) (st : PassState),
      (cycles.foldl (processCycle opts rel) st).events
        = st.events ++ cycles.map (fun c =>
            if everyPartExcluded opts c then PassEvent.cycleSuppressed c
            else PassEvent.cycleReported c) := by
  intro cycles
  induction cycles with
  | nil => intro st; simp
  | cons c cycles ih =>
    intro st
    rw [List.foldl_cons, ih, List.map_cons]
    by_cases hc : everyPartExcluded opts c
    · rw [processCycle_suppressed opts rel st c hc, if_pos hc]
      simp
    · rw [Bool.not_eq_true] at hc
      rw [if_neg (by simp [hc])]
      cases hd : opts.onDetected with
      | some f => rw [processCycle_callback opts rel st c f hd hc]; simp
      | none =>
        rw [processCycle_default opts rel st c hd hc]
        split <;> simp

theorem loop_invocations_callback (opts : Options) (rel : String → String → String)
    (f : List String → List String × List String → DetectedOutcome)
    (hf : opts.onDetected = some f) :
    ∀ (cycles : List (List String)) (st : PassState),
      (cycles.foldl (processCycle opts rel) st).invocations
        = st.invocations
          ++ (cycles.filter (fun c => !everyPartExcluded opts c)).map
              (closeRender rel opts.cwd) := by
  intro cycles
  induction cycles with
  | nil => intro st; simp
  | cons c cycles ih =>
    intro st
    rw [List.foldl_cons, ih]
    by_cases hc : everyPartExcluded opts c
    · rw [processCycle_suppressed opts rel st c hc, List.filter_cons_of_neg (by simp [hc])]
    · rw [Bool.not_eq_true] at hc
      rw [processCycle_callback opts rel st c f hf hc,
        List.filter_cons_of_pos (by simp [hc])]
      simp

theorem loop_invocations_none (opts : Options) (rel : String → String → String)
    (hf : opts.onDetected = none) :
    ∀ (cycles : List (List String)) (st : PassState),
      (cycles.foldl (processCycle opts rel) st).invocations = st.invocations := by
  intro cycles
  induction cycles with
  | nil => intro st; rfl
  | cons c cycles ih =>
    intro st
    rw [List.foldl_cons, ih]
    by_cases hc : everyPartExcluded opts c
    · rw [processCycle_suppressed opts rel st c hc]
    · rw [Bool.not_eq_true] at hc
      rw [processCycle_default opts rel st c hf hc]
      split <;> rfl

theorem loop_warnings_default (opts : Options) (rel : String → String → String)
    (hf : opts.onDetected = none) (hfe : opts.failOnError = false) :
    ∀ (cycles : List (List String)) (st : PassState),
      (cycles.foldl (processCycle opts rel) st).warnings
        = st.warnings
          ++ (cycles.filter (fun c => !everyPartExcluded opts c)).map
              (fun c => defaultMessage (closeRender rel opts.cwd c)) := by
  intro cycles
  induction cycles with
  | nil => intro st; simp
  | cons c cycles ih =>
    intro st
    rw [List.foldl_cons, ih]
    by_cases hc : everyPartExcluded opts c
    · rw [processCycle_suppressed opts rel st c hc, List.filter_cons_of_neg (by simp [hc])]
    · rw [Bool.not_eq_true] at hc
      rw [processCycle_default opts rel st c hf hc, if_neg (by simp [hfe]),
        List.filter_cons_of_pos (by simp [hc])]
      simp

theorem loop_errors_default (opts : Options) (rel : String → String → String)
    (hf : opts.onDetected = none) (hfe : opts.failOnError = true) :
    ∀ (cycles : List (List String)) (st : PassState),
      (cycles.foldl (processCycle opts rel) st).errors
        = st.errors
          ++ (cycles.filter (fun c => !everyPartExcluded opts c)).map
              (fun c => defaultMessage (closeRender rel opts.cwd c)) := by
  intro cycles
  induction cycles with
  | nil => intro st; simp
  | cons c cycles ih =>
    intro st
    rw [List.foldl_cons, ih]
    by_cases hc : everyPartExcluded opts c
    · rw [processCycle_suppressed opts rel st c hc, List.filter_cons_of_neg (by simp [hc])]
    · rw [Bool.not_eq_true] at hc
      rw [processCycle_default opts rel st c hf hc, if_pos hfe,
        List.filter_cons_of_pos (by simp [hc])]
      simp

theorem loop_warnings_default_const (opts : Options) (rel : String → String → String)
    (hf : opts.onDetected = none) (hfe : opts.failOnError = true) :
    ∀ (cycles : List (List String)) (st : PassState),
      (cycles.foldl (processCycle opts rel) st).warnings = st.warnings := by
  intro cycles
  induction cycles with
  | nil => intro st; rfl
  | cons c cycles ih =>
    intro st
    rw [List.foldl_cons, ih]
    by_cases hc : everyPartExcluded opts c
    · rw [processCycle_suppressed opts rel st c hc]
    · rw [Bool.not_eq_true] at hc
      rw [processCycle_default opts rel st c hf hc, if_pos hfe]

theorem loop_errors_default_const (opts : Options) (rel : String → String → String)
    (hf : opts.onDetected = none) (hfe : opts.failOnError = false) :
    ∀ (cycles : List (List String)) (st : PassState),
      (cycles.foldl (processCycle opts rel) st).errors = st.errors := by
  intro cycles
  induction cycles with
  | nil => intro st; rfl
  | cons c cycles ih =>
    intro st
    rw [List.foldl_cons, ih]
    by_cases hc : everyPartExcluded opts c
    · rw [processCycle_suppressed opts rel st c hc]
    · rw [Bool.not_eq_true] at hc
      rw [processCycle_default opts rel st c hf hc, if_neg (by simp [hfe])]

/-- Claim C5: a reportable cycle whose callback invocation throws has the
thrown message converted into an error appended to the errors collection
right after whatever the callback itself left there; the loop then simply
continues, and every remaining reportable cycle still gets its own
invocation. -/
theorem callback_failure_caught (opts : Options) (rel : String → String → String)
    (st : PassState) (cycle : List String) (rest : List (List String))
    (f : List String → List String × List String → DetectedOutcome) (e : String)
    (hf : opts.onDetected = some f)
    (hrep : everyPartExcluded opts cycle = false)
    (hth : (f (closeRender rel opts.cwd cycle) (st.warnings, st.errors)).thrown = some e) :
    ((processCycle opts rel st cycle).errors
      = (f (closeRender rel opts.cwd cycle) (st.warnings, st.errors)).newErrors ++ [e])
    ∧ ((cycle :: rest).foldl (processCycle opts rel) st
        = rest.foldl (processCycle opts rel) (processCycle opts rel st cycle))
    ∧ (((cycle :: rest).foldl (processCycle opts rel) st).invocations
        = st.invocations ++ [closeRender rel opts.cwd cycle]
          ++ (rest.filter (fun c => !everyPartExcluded opts c)).map
              (closeRender rel opts.cwd)) := by
  refine ⟨?_, rfl, ?_⟩
  · rw [processCycle_callback opts rel st cycle f hf hrep]
    rw [hth]
    rfl
  · rw [List.foldl_cons, loop_invocations_callback opts rel f hf rest _,
      processCycle_callback opts rel st cycle f hf hrep]

/-- Witness for claim C5: a throwing callback at a concrete cycle. -/
theorem callback_failure_caught_witness :
    (processCycle { defaultOptions "" with
        onDetected := some (fun _ we => ⟨we.1, we.2 ++ ["cb"], some "boom"⟩) }
      (fun _ p => p) ⟨[], [], [], []⟩ ["b", "a"]).errors = ["cb", "boom"] := by
  have h := callback_failure_caught { defaultOptions "" with
      onDetected := some (fun _ we => ⟨we.1, we.2 ++ ["cb"], some "boom"⟩) }
    (fun _ p => p) ⟨[], [], [], []⟩ ["b", "a"] []
    (fun _ we => ⟨we.1, we.2 ++ ["cb"], some "boom"⟩) "boom" rfl (by decide) rfl
  simpa using h.1

/-! ## Whole-pass characterizations -/

theorem events_applyStartHook (opts : Options) (st : PassState) :
    (applyStartHook opts st).events = st.events ++ [PassEvent.started] := by
  unfold applyStartHook
  split <;> rfl

theorem events_applyEndHook (opts : Options) (st : PassState) :
    (applyEndHook opts st).events = st.events ++ [PassEvent.ended] := by
  unfold applyEndHook
  split <;> rfl

theorem invocations_applyStartHook (opts : Options) (st : PassState) :
    (applyStartHook opts st).invocations = st.invocations := by
  unfold applyStartHook
  split <;> rfl

theorem invocations_applyEndHook (opts : Options) (st : PassState) :
    (applyEndHook opts st).invocations = st.invocations := by
  unfold applyEndHook
  split <;> rfl

theorem warnings_applyStartHook_none (opts : Options) (st : PassState)
    (h : opts.onStart = none) : (applyStartHook opts st).warnings = st.warnings := by
  unfold applyStartHook
  rw [h]

theorem warnings_applyEndHook_none (opts : Options) (st : PassState)
    (h : opts.onEnd = none) : (applyEndHook opts st).warnings = st.warnings := by
  unfold applyEndHook
  rw [h]

theorem errors_applyStartHook_none (opts : Options) (st : PassState)
    (h : opts.onStart = none) : (applyStartHook opts st).errors = st.errors := by
  unfold applyStartHook
  rw [h]

theorem errors_applyEndHook_none (opts : Options) (st : PassState)
    (h : opts.onEnd = none) : (applyEndHook opts st).errors = st.errors := by
  unfold applyEndHook
  rw [h]

theorem runPass_events (opts : Options) (rel : String → String → String)
    (table : List NModule) :
    (runPass opts rel table).events
      = PassEvent.started :: PassEvent.ingested ::
        ((buildGraph opts.allowAsyncCycles table).getCycles.map (fun c =>
            if everyPartExcluded opts c then PassEvent.cycleSuppressed c
            else PassEvent.cycleReported c)
          ++ [PassEvent.ended]) := by
  unfold runPass
  rw [events_applyEndHook, loop_events]
  simp [events_applyStartHook]

theorem runPass_invocations_callback (opts : Options) (rel : String → String → String)
    (table : List NModule) (f : List String → List String × List String → DetectedOutcome)
    (hf : opts.onDetected = some f) :
    (runPass opts rel table).invocations
      = ((buildGraph opts.allowAsyncCycles table).getCycles.filter
          (fun c => !everyPartExcluded opts c)).map (closeRender rel opts.cwd) := by
  unfold runPass
  rw [invocations_applyEndHook, loop_invocations_callback opts rel f hf]
  simp [invocations_applyStartHook]

theorem runPass_invocations_none (opts : Options) (rel : String → String → String)
    (table : List NModule) (hf : opts.onDetected = none) :
    (runPass opts rel table).invocations = [] := by
  unfold runPass
  rw [invocations_applyEndHook, loop_invocations_none opts rel hf]
  simp [invocations_applyStartHook]

theorem runPass_warnings_default (opts : Options) (rel : String → String → String)
    (table : List NModule) (hf : opts.onDetected = none)
    (hs : opts.onStart = none) (he : opts.onEnd = none) :
    (runPass opts rel table).warnings
      = if opts.failOnError then []
        else ((buildGraph opts.allowAsyncCycles table).getCycles.filter
            (fun c => !everyPartExcluded opts c)).map
            (fun c => defaultMessage (closeRender rel opts.cwd c)) := by
  unfold runPass
  rw [warnings_applyEndHook_none _ _ he]
  cases hfe : opts.failOnError with
  | true =>
    rw [loop_warnings_default_const opts rel hf hfe]
    simp [warnings_applyStartHook_none _ _ hs]
  | false =>
    rw [loop_warnings_default opts rel hf hfe]
    simp [warnings_applyStartHook_none _ _ hs]

theorem runPass_errors_default (opts : Options) (rel : String → String → String)
    (table : List NModule) (hf : opts.onDetected = none)
    (hs : opts.onStart = none) (he : opts.onEnd = none) :
    (runPass opts rel table).errors
      = if opts.failOnError then
          ((buildGraph opts.allowAsyncCycles table).getCycles.filter
            (fun c => !everyPartExcluded opts c)).map
            (fun c => defaultMessage (closeRender rel opts.cwd c))
        else [] := by
  unfold runPass
  rw [errors_applyEndHook_none _ _ he]
  cases hfe : opts.failOnError with
  | true =>
    rw [loop_errors_default opts rel hf hfe]
    simp [errors_applyStartHook_none _ _ hs]
  | false =>
    rw [loop_errors_default_const opts rel hf hfe]
    simp [errors_applyStartHook_none _ _ hs]

/-- Claim C7: every pass's trace starts with the onStart stage, followed by
graph ingestion, then only per-cycle stages, and always ends with the
onEnd stage — also when per-cycle callback invocations fail, since the
options (hence the callback outcomes, throwing ones included) are
universally quantified here. -/
theorem lifecycle_trace (opts : Options) (rel : String → String → String)
    (table : List NModule) :
    ∃ mid, (runPass opts rel table).events
        = PassEvent.started :: PassEvent.ingested :: (mid ++ [PassEvent.ended])
      ∧ ∀ e ∈ mid, e ≠ PassEvent.started ∧ e ≠ PassEvent.ingested
          ∧ e ≠ PassEvent.ended := by
  refine ⟨_, runPass_events opts rel table, ?_⟩
  intro e he
  obtain ⟨c, -, hc⟩ := List.mem_map.mp he
  rw [← hc]
  split <;> exact ⟨by simp, by simp, by simp⟩

/-- With a callback configured, one cycle's processing never reads
failOnError. -/
theorem processCycle_failOnError_irrelevant (ex inc : String → Bool) (b₁ b₂ : Bool)
    (aa : Bool) (f : List String → List String × List String → DetectedOutcome)
    (os oe : Option (List String × List String → List String × List String))
    (cw : String) (rel : String → String → String) (st : PassState) (cycle : List String) :
    processCycle ⟨ex, inc, b₁, aa, some f, os, oe, cw⟩ rel st cycle
      = processCycle ⟨ex, inc, b₂, aa, some f, os, oe, cw⟩ rel st cycle := by
  by_cases hc : everyPartExcluded ⟨ex, inc, b₁, aa, some f, os, oe, cw⟩ cycle
  · have hc₂ : everyPartExcluded ⟨ex, inc, b₂, aa, some f, os, oe, cw⟩ cycle = true := hc
    rw [processCycle_suppressed _ rel st cycle hc, processCycle_suppressed _ rel st cycle hc₂]
  · rw [Bool.not_eq_true] at hc
    have hc₂ : everyPartExcluded ⟨ex, inc, b₂, aa, some f, os, oe, cw⟩ cycle = false := hc
    rw [processCycle_callback _ rel st cycle f rfl hc,
      processCycle_callback _ rel st cycle f rfl hc₂]

theorem runPass_failOnError_callback (ex inc : String → Bool) (b₁ b₂ : Bool)
    (aa : Bool) (f : List String → List String × List String → DetectedOutcome)
    (os oe : Option (List String × List String → List String × List String))
    (cw : String) (rel : String → String → String) (table : List NModule) :
    runPass ⟨ex, inc, b₁, aa, some f, os, oe, cw⟩ rel table
      = runPass ⟨ex, inc, b₂, aa, some f, os, oe, cw⟩ rel table := by
  simp only [runPass]
  rw [List.foldl_ext (processCycle ⟨ex, inc, b₁, aa, some f, os, oe, cw⟩ rel)
    (processCycle ⟨ex, inc, b₂, aa, some f, os, oe, cw⟩ rel) _
    (fun st c _ => processCycle_failOnError_irrelevant ex inc b₁ b₂ aa f os oe cw rel st c)]
  rfl

/-- Claim C9: with a custom onDetected callback configured, flipping
failOnError changes nothing — the two passes agree on warnings, errors,
invocations and the whole trace. -/
theorem failOnError_noop_with_callback (opts : Options) (rel : String → String → String)
    (table : List NModule) (f : List String → List String × List String → DetectedOutcome)
    (b₁ b₂ : Bool) (hf : opts.onDetected = some f) :
    runPass { opts with failOnError := b₁ } rel table
      = runPass { opts with failOnError := b₂ } rel table := by
  obtain ⟨ex, inc, fe, aa, od, os, oe, cw⟩ := opts
  cases hf
  exact runPass_failOnError_callback ex inc b₁ b₂ aa f os oe cw rel table

/-- Witness for claim C9 at a concrete graph and callback. -/
theorem failOnError_noop_with_callback_witness :
    runPass { defaultOptions "" with
        failOnError := true
        onDetected := some (fun p we => ⟨we.1 ++ p, we.2, none⟩) }
      (fun _ p => p) (chainCycleModules ["d"] ["e", "f", "g"])
    = runPass { defaultOptions "" with
        failOnError := false
        onDetected := some (fun p we => ⟨we.1 ++ p, we.2, none⟩) }
      (fun _ p => p) (chainCycleModules ["d"] ["e", "f", "g"]) := by
  exact failOnError_noop_with_callback
    { defaultOptions "" with onDetected := some (fun p we => ⟨we.1 ++ p, we.2, none⟩) }
    (fun _ p => p) (chainCycleModules ["d"] ["e", "f", "g"])
    (fun p we => ⟨we.1 ++ p, we.2, none⟩) true false rfl

/-- Claim C10: the include/exclude filter reads the absolute resource
paths, so two passes differing only in the cwd option suppress and report
exactly the same cycles (identical traces); cwd enters only through the
rendering of the reported paths in diagnostics and callback arguments. -/
theorem cwd_only_affects_rendering (ex inc : String → Bool) (fe aa : Bool)
    (od : Option (List String → List String × List String → DetectedOutcome))
    (os oe : Option (List String × List String → List String × List String))
    (cwd₁ cwd₂ : String) (rel : String → String → String) (table : List NModule) :
    ((runPass ⟨ex, inc, fe, aa, od, os, oe, cwd₁⟩ rel table).events
      = (runPass ⟨ex, inc, fe, aa, od, os, oe, cwd₂⟩ rel table).events)
    ∧ (∀ f, od = some f →
        (runPass ⟨ex, inc, fe, aa, od, os, oe, cwd₁⟩ rel table).invocations
          = ((buildGraph aa table).getCycles.filter
              (fun c => !everyPartExcluded ⟨ex, inc, fe, aa, od, os, oe, cwd₁⟩ c)).map
              (closeRender rel cwd₁)
        ∧ (runPass ⟨ex, inc, fe, aa, od, os, oe, cwd₂⟩ rel table).invocations
          = ((buildGraph aa table).getCycles.filter
              (fun c => !everyPartExcluded ⟨ex, inc, fe, aa, od, os, oe, cwd₂⟩ c)).map
              (closeRender rel cwd₂))
    ∧ (od = none → os = none → oe = none →
        ((runPass ⟨ex, inc, fe, aa, od, os, oe, cwd₁⟩ rel table).warnings
          = if fe then []
            else ((buildGraph aa table).getCycles.filter
                (fun c => !everyPartExcluded ⟨ex, inc, fe, aa, od, os, oe, cwd₁⟩ c)).map
                (fun c => defaultMessage (closeRender rel cwd₁ c)))
        ∧ ((runPass ⟨ex, inc, fe, aa, od, os, oe, cwd₁⟩ rel table).errors
          = if fe then ((buildGraph aa table).getCycles.filter
                (fun c => !everyPartExcluded ⟨ex, inc, fe, aa, od, os, oe, cwd₁⟩ c)).map
                (fun c => defaultMessage (closeRender rel cwd₁ c))
            else [])
        ∧ ((runPass ⟨ex, inc, fe, aa, od, os, oe, cwd₂⟩ rel table).warnings
          = if fe then []
            else ((buildGraph aa table).getCycles.filter
                (fun c => !everyPartExcluded ⟨ex, inc, fe, aa, od, os, oe, cwd₂⟩ c)).map
                (fun c => defaultMessage (closeRender rel cwd₂ c)))
        ∧ ((runPass ⟨ex, inc, fe, aa, od, os, oe, cwd₂⟩ rel table).errors
          = if fe then ((buildGraph aa table).getCycles.filter
                (fun c => !everyPartExcluded ⟨ex, inc, fe, aa, od, os, oe, cwd₂⟩ c)).map
                (fun c => defaultMessage (closeRender rel cwd₂ c))
            else [])) := by
  refine ⟨?_, ?_, ?_⟩
  · rw [runPass_events, runPass_events]
    rfl
  · intro f hf
    cases hf
    exact ⟨runPass_invocations_callback _ rel table f rfl,
      runPass_invocations_callback _ rel table f rfl⟩
  · intro h1 h2 h3
    cases h1; cases h2; cases h3
    exact ⟨runPass_warnings_default _ rel table rfl rfl rfl,
      runPass_errors_default _ rel table rfl rfl rfl,
      runPass_warnings_default _ rel table rfl rfl rfl,
      runPass_errors_default _ rel table rfl rfl rfl⟩

/-- Witness for claim C10: with a prefixing renderer, two cwd values give
the same trace, and the invocation paths are the two renderings. -/
theorem cwd_only_affects_rendering_witness :
    ((runPass ⟨fun _ => false, fun _ => true, false, false,
        some (fun p we => ⟨we.1 ++ p, we.2, none⟩), none, none, "W1"⟩
        (fun c p => c ++ "/" ++ p) (chainCycleModules ["d"] ["e", "f", "g"])).events
      = (runPass ⟨fun _ => false, fun _ => true, false, false,
          some (fun p we => ⟨we.1 ++ p, we.2, none⟩), none, none, "W2"⟩
          (fun c p => c ++ "/" ++ p) (chainCycleModules ["d"] ["e", "f", "g"])).events)
    ∧ (runPass ⟨fun _ => false, fun _ => true, false, false,
        some (fun p we => ⟨we.1 ++ p, we.2, none⟩), none, none, "W1"⟩
        (fun c p => c ++ "/" ++ p) (chainCycleModules ["d"] ["e", "f", "g"])).invocations
      = [["W1/e", "W1/f", "W1/g", "W1/e"]] := by
  have h := cwd_only_affects_rendering (fun _ => false) (fun _ => true) false false
    (some (fun p we => ⟨we.1 ++ p, we.2, none⟩)) none none "W1" "W2"
    (fun c p => c ++ "/" ++ p) (chainCycleModules ["d"] ["e", "f", "g"])
  refine ⟨h.1, ((h.2.1 _ rfl).1).trans (by decide)⟩

/-! ## The part_001 variant's reporting loop (claim C6) -/

/-- Claim C6: with a custom onDetected callback configured, the part_001
variant's reporting loop synthesizes no default diagnostic, and the
callback is invoked once per surviving cycle, in discovery order, with the
cycle's complete ordered rendered path list and the origin module
reference graph.modules[cycle[0]]. -/
theorem callback_mode_invocations (opts : Options) (rel : String → String → String)
    (marr : List NModule) (f : List String → List String × List String → DetectedOutcome)
    (hf : opts.onDetected = some f) :
    ∀ (cycles : List (List Nat)) (st : ReportStateP1),
      (reportLoopP1 opts rel marr st cycles).defaults = st.defaults
      ∧ (reportLoopP1 opts rel marr st cycles).invocations
        = st.invocations
          ++ (cycles.filter (fun cyc => !everyPartExcludedP1 opts marr cyc)).map
              (fun cyc => (cyc.head?.bind (fun i => marr[i]?),
                (absPathsP1 marr cyc).map (rel opts.cwd))) := by
  intro cycles
  induction cycles with
  | nil => intro st; exact ⟨rfl, by simp [reportLoopP1]⟩
  | cons cyc cycles ih =>
    intro st
    have hunf : reportLoopP1 opts rel marr st (cyc :: cycles)
        = reportLoopP1 opts rel marr (processCycleP1 opts rel marr st cyc) cycles := rfl
    by_cases hc : everyPartExcludedP1 opts marr cyc
    · have hstep : processCycleP1 opts rel marr st cyc = st := by
        unfold processCycleP1
        rw [if_pos hc]
      rw [hunf, hstep, List.filter_cons_of_neg (by simp [hc])]
      exact ih st
    · rw [Bool.not_eq_true] at hc
      have hstep : processCycleP1 opts rel marr st cyc
          = { st with
              warnings := (f ((absPathsP1 marr cyc).map (rel opts.cwd))
                (st.warnings, st.errors)).newWarnings
              errors := (f ((absPathsP1 marr cyc).map (rel opts.cwd))
                  (st.warnings, st.errors)).newErrors
                ++ (f ((absPathsP1 marr cyc).map (rel opts.cwd))
                  (st.warnings, st.errors)).thrown.toList
              invocations := st.invocations
                ++ [(cyc.head?.bind (fun i => marr[i]?),
                    (absPathsP1 marr cyc).map (rel opts.cwd))] } := by
        unfold processCycleP1
        rw [hc, hf]
        rfl
      rw [hunf, hstep, List.filter_cons_of_pos (by simp [hc])]
      obtain ⟨h1, h2⟩ := ih ({ st with
              warnings := (f ((absPathsP1 marr cyc).map (rel opts.cwd))
                (st.warnings, st.errors)).newWarnings
              errors := (f ((absPathsP1 marr cyc).map (rel opts.cwd))
                  (st.warnings, st.errors)).newErrors
                ++ (f ((absPathsP1 marr cyc).map (rel opts.cwd))
                  (st.warnings, st.errors)).thrown.toList
              invocations := st.invocations
                ++ [(cyc.head?.bind (fun i => marr[i]?),
                    (absPathsP1 marr cyc).map (rel opts.cwd))] })
      refine ⟨h1, ?_⟩
      rw [h2]
      simp

/-- Witness for claim C6 at the concrete e, f, g cycle of the d, e, f, g
scenario, as the part_001 variant numbers it. -/
theorem callback_mode_invocations_witness :
    (reportLoopP1 { defaultOptions "" with
        onDetected := some (fun p we => ⟨we.1 ++ p, we.2, none⟩) }
      (fun _ p => p) (chainCycleModules ["d"] ["e", "f", "g"])
      ⟨[], [], [], []⟩ [[1, 2, 3]]).invocations
      = [(some ⟨1, true, some "e", [⟨some 2, false⟩]⟩, ["e", "f", "g", "e"])] := by
  have h := (callback_mode_invocations { defaultOptions "" with
      onDetected := some (fun p we => ⟨we.1 ++ p, we.2, none⟩) }
    (fun _ p => p) (chainCycleModules ["d"] ["e", "f", "g"])
    (fun p we => ⟨we.1 ++ p, we.2, none⟩) rfl [[1, 2, 3]] ⟨[], [], [], []⟩).2
  exact h.trans (by decide)

/-! ## The traversal along a walk (towards claim C1) -/

theorem dfsFrom_visited (g : TGraph) (fuel : Nat) (v : String) (vis : List String)
    (h : v ∈ vis) : dfsFrom g (fuel + 1) v vis = vis := by
  simp [dfsFrom, h]

theorem succChain_tail (g : TGraph) : ∀ (l : List String) (a : String),
    succChain g (a :: l) → succChain g l := by
  intro l a h
  cases l with
  | nil => trivial
  | cons b r => exact h.2

theorem succChain_append_right (g : TGraph) :
    ∀ (l₁ l₂ : List String), succChain g (l₁ ++ l₂) → succChain g l₂ := by
  intro l₁
  induction l₁ with
  | nil => intro l₂ h; exact h
  | cons a l₁ ih =>
    intro l₂ h
    exact ih l₂ (succChain_tail g (l₁ ++ l₂) a h)

theorem succChain_append_left (g : TGraph) :
    ∀ (l₁ l₂ : List String), succChain g (l₁ ++ l₂) → succChain g l₁ := by
  intro l₁
  induction l₁ with
  | nil => intro l₂ _; trivial
  | cons a l₁ ih =>
    intro l₂ h
    cases l₁ with
    | nil => trivial
    | cons b l₁' =>
      exact ⟨h.1, ih l₂ h.2⟩

theorem succChain_glue (g : TGraph) (m : String) :
    ∀ (xs ys : List String), succChain g (xs ++ [m]) → succChain g (m :: ys) →
      succChain g (xs ++ m :: ys) := by
  intro xs
  induction xs with
  | nil => intro ys _ h2; exact h2
  | cons a xs' ih =>
    intro ys h1 h2
    cases xs' with
    | nil => exact ⟨h1.1, h2⟩
    | cons b xs'' => exact ⟨h1.1, ih ys h1.2 h2⟩

theorem dfs_walk (g : TGraph) (z : String) :
    ∀ (l : List String) (a : String) (vis : List String) (fuel : Nat),
      succChain g ((a :: l) ++ [z]) → z ∈ vis ++ (a :: l) →
      (vis ++ (a :: l)).Nodup → (a :: l).length < fuel →
      dfsFrom g fuel a vis = vis ++ (a :: l) := by
  intro l
  induction l with
  | nil =>
    intro a vis fuel hchain hz hnd hfuel
    simp only [List.length_cons, List.length_nil] at hfuel
    obtain ⟨f, rfl⟩ : ∃ f, fuel = f + 1 := ⟨fuel - 1, by omega⟩
    have ha : a ∉ vis := by
      simp only [List.nodup_append] at hnd
      intro hmem
      exact hnd.2.2 hmem (by simp)
    rw [dfsFrom, if_neg ha, hchain.1]
    obtain ⟨f', rfl⟩ : ∃ f', f = f' + 1 := ⟨f - 1, by omega⟩
    simp only [List.foldl_cons, List.foldl_nil]
    exact dfsFrom_visited g f' z (vis ++ [a]) hz
  | cons b l ih =>
    intro a vis fuel hchain hz hnd hfuel
    simp only [List.length_cons] at hfuel
    obtain ⟨f, rfl⟩ : ∃ f, fuel = f + 1 := ⟨fuel - 1, by omega⟩
    have ha : a ∉ vis := by
      simp only [List.nodup_append] at hnd
      intro hmem
      exact hnd.2.2 hmem (by simp)
    rw [dfsFrom, if_neg ha, hchain.1]
    simp only [List.foldl_cons, List.foldl_nil]
    have hassoc : vis ++ a :: b :: l = (vis ++ [a]) ++ b :: l := by simp
    have := ih b (vis ++ [a]) f hchain.2 (by rw [← hassoc]; exact hz)
      (by rw [← hassoc]; exact hnd) (by simp at hfuel ⊢; omega)
    rw [this, ← hassoc]

theorem foldl_dfs_visited (g : TGraph) (F : Nat) (hF : 0 < F) :
    ∀ (roots : List String) (vis : List String), (∀ r ∈ roots, r ∈ vis) →
      roots.foldl (fun vis v => dfsFrom g F v vis) vis = vis := by
  intro roots
  induction roots with
  | nil => intro vis _; rfl
  | cons r roots ih =>
    intro vis h
    obtain ⟨f, rfl⟩ : ∃ f, F = f + 1 := ⟨F - 1, by omega⟩
    rw [List.foldl_cons, dfsFrom_visited g f r vis (h r (List.mem_cons_self r roots))]
    exact ih vis (fun x hx => h x (List.mem_cons_of_mem r hx))

/-! ## Accumulating a chain of single edges (towards claim C1) -/

theorem keys_addPair (g : TGraph) (a b : String) :
    (addPair g (a, b)).keys = (ensureVertex (ensureVertex g b) a).keys := by
  unfold addPair TGraph.add
  simp only [List.foldl_cons, List.foldl_nil]
  rw [keys_pushEdge]

theorem succOf_addPair_self (g : TGraph) (a b : String) (h : g.succOf a = []) :
    (addPair g (a, b)).succOf a = [b] := by
  unfold addPair TGraph.add
  simp only [List.foldl_cons, List.foldl_nil]
  have h2 : (ensureVertex (ensureVertex g b) a).succOf a = [] := by
    rw [succOf_ensureVertex, succOf_ensureVertex]; exact h
  rw [succOf_pushEdge_key, h2]
  simp

theorem succOf_addPair_ne (g : TGraph) (a b k : String) (h : k ≠ a) :
    (addPair g (a, b)).succOf k = g.succOf k :=
  succOf_add_ne g a [b] k h

theorem keys_addPair_first (g : TGraph) (a b : String) (hb : b ∉ g.keys)
    (ha : a ∉ g.keys) (hab : a ≠ b) :
    (addPair g (a, b)).keys = g.keys ++ [b, a] := by
  rw [keys_addPair, keys_ensureVertex (ensureVertex g b) a, keys_ensureVertex g b,
    if_neg hb, if_neg (by simp [ha, hab])]
  simp

theorem keys_addPair_step (g : TGraph) (a b : String) (ha : a ∈ g.keys)
    (hb : b ∉ g.keys) : (addPair g (a, b)).keys = g.keys ++ [b] := by
  rw [keys_addPair, keys_ensureVertex (ensureVertex g b) a, keys_ensureVertex g b,
    if_neg hb, if_pos (by simp [ha])]

theorem keys_addPair_mem (g : TGraph) (a b : String) (ha : a ∈ g.keys)
    (hb : b ∈ g.keys) : (addPair g (a, b)).keys = g.keys := by
  rw [keys_addPair, keys_ensureVertex (ensureVertex g b) a, keys_ensureVertex g b,
    if_pos hb, if_pos ha]

theorem pairsOf_fold_spec (z : String) :
    ∀ (l : List String) (a : String) (g : TGraph),
      a ∈ g.keys → (∀ x ∈ l, x ∉ g.keys) → (a :: l).Nodup →
      (∀ x ∈ a :: l, g.succOf x = []) → (z ∈ g.keys ∨ z ∈ l) →
      (((pairsOf (a :: l) z).foldl addPair g).keys = g.keys ++ l)
      ∧ succChain ((pairsOf (a :: l) z).foldl addPair g) ((a :: l) ++ [z])
      ∧ (∀ w, w ∉ a :: l →
          ((pairsOf (a :: l) z).foldl addPair g).succOf w = g.succOf w) := by
  intro l
  induction l with
  | nil =>
    intro a g ha hl hnd hsucc hz
    have hzk : z ∈ g.keys := by
      rcases hz with hz | hz
      · exact hz
      · exact absurd hz (List.not_mem_nil z)
    have hstep : pairsOf [a] z = [(a, z)] := rfl
    rw [hstep]
    simp only [List.foldl_cons, List.foldl_nil]
    refine ⟨?_, ?_, ?_⟩
    · rw [keys_addPair_mem g a z ha hzk]
      simp
    · exact ⟨succOf_addPair_self g a z (hsucc a (List.mem_cons_self a _)), trivial⟩
    · intro w hw
      exact succOf_addPair_ne g a z w (by simp at hw; exact hw)
  | cons b l ih =>
    intro a g ha hl hnd hsucc hz
    have hb : b ∉ g.keys := hl b (List.mem_cons_self b l)
    have hstep : pairsOf (a :: b :: l) z = (a, b) :: pairsOf (b :: l) z := rfl
    rw [hstep, List.foldl_cons]
    have hab : a ≠ b := by
      intro he
      rw [he] at hnd
      simp at hnd
    have hkeys1 : (addPair g (a, b)).keys = g.keys ++ [b] :=
      keys_addPair_step g a b ha hb
    have hsucca : (addPair g (a, b)).succOf a = [b] :=
      succOf_addPair_self g a b (hsucc a (List.mem_cons_self a _))
    have hfr : ∀ w, w ≠ a → (addPair g (a, b)).succOf w = g.succOf w :=
      fun w hw => succOf_addPair_ne g a b w hw
    have h1 : b ∈ (addPair g (a, b)).keys := by rw [hkeys1]; simp
    have h2 : ∀ x ∈ l, x ∉ (addPair g (a, b)).keys := by
      intro x hx
      rw [hkeys1]
      have hxg : x ∉ g.keys := hl x (List.mem_cons_of_mem b hx)
      have hxb : x ≠ b := by
        intro he
        rw [he] at hx
        simp at hnd
        exact hnd.2.1 hx
      simp [hxg, hxb]
    have h3 : (b :: l).Nodup := hnd.of_cons
    have h4 : ∀ x ∈ b :: l, (addPair g (a, b)).succOf x = [] := by
      intro x hx
      have hxa : x ≠ a := by
        intro he
        rw [he] at hx
        simp at hnd
        exact absurd hx (by simpa using hnd.1)
      rw [hfr x hxa]
      exact hsucc x (List.mem_cons_of_mem a hx)
    have h5 : z ∈ (addPair g (a, b)).keys ∨ z ∈ l := by
      rcases hz with hz | hz
      · left; rw [hkeys1]; simp [hz]
      · rcases List.mem_cons.mp hz with hz | hz
        · left; rw [hz, hkeys1]; simp
        · right; exact hz
    obtain ⟨ck, cc, cf⟩ := ih b (addPair g (a, b)) h1 h2 h3 h4 h5
    refine ⟨?_, ?_, ?_⟩
    · rw [ck, hkeys1]
      simp
    · have hsa : ((pairsOf (b :: l) z).foldl addPair (addPair g (a, b))).succOf a = [b] := by
        rw [cf a (by simp at hnd; intro hmem; exact absurd hmem (by simpa using hnd.1))]
        exact hsucca
      exact ⟨hsa, cc⟩
    · intro w hw
      simp only [List.mem_cons, not_or] at hw
      rw [cf w (by simp [hw.2.1, hw.2.2]), hfr w hw.1]

/-! ## The chain-into-cycle family's graph (towards claim C1) -/

theorem pairsOf_eq_zip (z : String) : ∀ l : List String, pairsOf l z = l.zip (l.tail ++ [z]) := by
  intro l
  induction l with
  | nil => rfl
  | cons a l ih =>
    cases l with
    | nil => rfl
    | cons b r =>
      show (a, b) :: pairsOf (b :: r) z = (a, b) :: (b :: r).zip (r ++ [z])
      rw [ih]
      rfl

theorem chainCycle_module (ps cs : List String) (j : Nat) (hj : j < (ps ++ cs).length) :
    (chainCycleModules ps cs)[j]?
      = some ⟨j, true, some ((ps ++ cs).getD j ""),
          [⟨some (if j == (ps ++ cs).length - 1 then ps.length else j + 1), false⟩]⟩ := by
  unfold chainCycleModules
  have hj' : j < ps.length + cs.length := by simpa using hj
  simp [List.getElem?_range hj', hj]

theorem chainCycle_collect (ps cs : List String) (hps : ps ≠ []) (hct : 2 ≤ cs.length)
    (i : Nat) (hi : i < (ps ++ cs).length) :
    collectDependencyResources (chainCycleModules ps cs) false
      ⟨i, true, some ((ps ++ cs).getD i ""),
        [⟨some (if i == (ps ++ cs).length - 1 then ps.length else i + 1), false⟩]⟩
      = [(ps ++ cs).getD (if i == (ps ++ cs).length - 1 then ps.length else i + 1) ""] := by
  have hK : (ps ++ cs).length = ps.length + cs.length := List.length_append ps cs
  have hps' : 0 < ps.length := List.length_pos.mpr hps
  have hjK : (if i == (ps ++ cs).length - 1 then ps.length else i + 1) < (ps ++ cs).length := by
    by_cases hiK : i = (ps ++ cs).length - 1
    · simp only [hiK, beq_self_eq_true, if_true]
      omega
    · rw [if_neg (by simpa using hiK)]
      omega
  have hji : (if i == (ps ++ cs).length - 1 then ps.length else i + 1) ≠ i := by
    by_cases hiK : i = (ps ++ cs).length - 1
    · simp only [hiK, beq_self_eq_true, if_true]
      omega
    · rw [if_neg (by simpa using hiK)]
      omega
  unfold collectDependencyResources
  simp only [List.filterMap_cons, List.filterMap_nil]
  unfold depResource
  unfold getModule
  simp only [Option.some_bind]
  rw [chainCycle_module ps cs _ hjK]
  simp only [beq_iff_eq, List.length_append]
  have hji' : (if i = ps.length + cs.length - 1 then ps.length else i + 1) ≠ i := by
    by_cases hiK : i = ps.length + cs.length - 1
    · rw [if_pos hiK]; omega
    · rw [if_neg hiK]; omega
  simp [hji']

theorem chainCycle_pairs (ps : List String) (c0 : String) (ct : List String) :
    (List.range (ps ++ c0 :: ct).length).map (fun i =>
        ((ps ++ c0 :: ct).getD i "",
         (ps ++ c0 :: ct).getD
           (if i == (ps ++ c0 :: ct).length - 1 then ps.length else i + 1) ""))
      = pairsOf (ps ++ c0 :: ct) c0 := by
  rw [pairsOf_eq_zip]
  apply List.ext_getElem
  · simp
    omega
  · intro i h1 h2
    simp only [List.getElem_map, List.getElem_range, List.getElem_zip]
    have hiK : i < (ps ++ c0 :: ct).length := by
      simp at h1
      simpa using h1
    have htl : ((ps ++ c0 :: ct).tail).length = ps.length + ct.length := by
      simp [List.length_tail]
    have hKlen : (ps ++ c0 :: ct).length = ps.length + ct.length + 1 := by
      simp only [List.length_append, List.length_cons]
      omega
    simp only [Prod.mk.injEq]
    constructor
    · exact List.getD_eq_getElem _ _ hiK
    · by_cases hlast : i = (ps ++ c0 :: ct).length - 1
      · subst hlast
        rw [if_pos (by simp)]
        have hpsK : ps.length < (ps ++ c0 :: ct).length := by simp
        rw [List.getD_eq_getElem _ _ hpsK]
        rw [List.getElem_append_right
          (show ((ps ++ c0 :: ct).tail).length ≤ (ps ++ c0 :: ct).length - 1 by omega)]
        rw [List.getElem_append_right (show List.length ps ≤ ps.length from le_rfl)]
        have h3 : (ps ++ c0 :: ct).length - 1 - ((ps ++ c0 :: ct).tail).length = 0 := by
          omega
        have h4 : ps.length - ps.length = 0 := by omega
        simp [h3, h4]
      · rw [if_neg (by simpa using hlast)]
        have hi1 : i + 1 < (ps ++ c0 :: ct).length := by omega
        rw [List.getD_eq_getElem _ _ hi1]
        rw [List.getElem_append_left
          (show i < ((ps ++ c0 :: ct).tail).length by omega)]
        rw [List.getElem_tail]

theorem chainCycle_buildGraph (ps : List String) (c0 : String) (ct : List String)
    (hps : ps ≠ []) (hct : 2 ≤ (c0 :: ct).length) :
    buildGraph false (chainCycleModules ps (c0 :: ct))
      = (pairsOf (ps ++ c0 :: ct) c0).foldl addPair emptyTGraph := by
  unfold buildGraph
  have htab : chainCycleModules ps (c0 :: ct)
      = (List.range (ps ++ c0 :: ct).length).map (fun i =>
          ⟨i, true, some ((ps ++ c0 :: ct).getD i ""),
            [⟨some (if i == (ps ++ c0 :: ct).length - 1 then ps.length else i + 1),
              false⟩]⟩) := rfl
  rw [htab, List.foldl_map]
  rw [List.foldl_ext _ (fun g i => addPair g
      ((ps ++ c0 :: ct).getD i "",
       (ps ++ c0 :: ct).getD
         (if i == (ps ++ c0 :: ct).length - 1 then ps.length else i + 1) ""))
    emptyTGraph ?_]
  · rw [← List.foldl_map, chainCycle_pairs]
  · intro g i hi
    have hiK : i < (ps ++ c0 :: ct).length := by simpa using hi
    dsimp only
    rw [← htab, chainCycle_collect ps (c0 :: ct) hps hct i hiK]
    rfl

theorem chainCycle_graph_spec (p0 c0 : String) (pt ct : List String)
    (hnd : ((p0 :: pt) ++ c0 :: ct).Nodup) :
    ∃ t1 tl', pt ++ c0 :: ct = t1 :: tl'
      ∧ ((pairsOf ((p0 :: pt) ++ c0 :: ct) c0).foldl addPair emptyTGraph).keys
          = t1 :: p0 :: tl'
      ∧ succChain ((pairsOf ((p0 :: pt) ++ c0 :: ct) c0).foldl addPair emptyTGraph)
          (((p0 :: pt) ++ c0 :: ct) ++ [c0]) := by
  obtain ⟨t1, tl', htl⟩ : ∃ t1 tl', pt ++ c0 :: ct = t1 :: tl' := by
    cases h : pt ++ c0 :: ct with
    | nil => exact absurd h (by simp)
    | cons a b => exact ⟨a, b, rfl⟩
  have hnames : (p0 :: pt) ++ c0 :: ct = p0 :: t1 :: tl' := by
    rw [List.cons_append, htl]
  have hp0 : p0 ∉ t1 :: tl' := by
    rw [← htl]
    have := hnd
    rw [List.cons_append] at this
    exact (List.nodup_cons.mp this).1
  have htlnd : (t1 :: tl').Nodup := by
    rw [← htl]
    have := hnd
    rw [List.cons_append] at this
    exact (List.nodup_cons.mp this).2
  have hp0t1 : p0 ≠ t1 := by
    intro he
    exact hp0 (he ▸ List.mem_cons_self t1 tl')
  have hc0mem : c0 ∈ t1 :: tl' := by
    rw [← htl]
    simp
  have hpairs : pairsOf ((p0 :: pt) ++ c0 :: ct) c0
      = (p0, t1) :: pairsOf (t1 :: tl') c0 := by
    rw [hnames]
    rfl
  have hkeys1 : (addPair emptyTGraph (p0, t1)).keys = [t1, p0] := by
    rw [keys_addPair_first emptyTGraph p0 t1 (by simp [emptyTGraph])
      (by simp [emptyTGraph]) hp0t1]
    rfl
  have hsucc1 : (addPair emptyTGraph (p0, t1)).succOf p0 = [t1] :=
    succOf_addPair_self emptyTGraph p0 t1 rfl
  have hfr1 : ∀ w, w ≠ p0 → (addPair emptyTGraph (p0, t1)).succOf w = [] := by
    intro w hw
    rw [succOf_addPair_ne emptyTGraph p0 t1 w hw]
    rfl
  obtain ⟨ck, cc, cf⟩ := pairsOf_fold_spec c0 tl' t1 (addPair emptyTGraph (p0, t1))
    (by rw [hkeys1]; simp)
    (by
      intro x hx
      rw [hkeys1]
      have hx1 : x ≠ t1 := by
        intro he
        rw [he] at hx
        exact (List.nodup_cons.mp htlnd).1 hx
      have hx2 : x ≠ p0 := by
        intro he
        rw [he] at hx
        exact hp0 (List.mem_cons_of_mem t1 hx)
      simp [hx1, hx2])
    htlnd
    (by
      intro x hx
      refine hfr1 x ?_
      intro he
      rw [he] at hx
      exact hp0 hx)
    (by
      rcases List.mem_cons.mp hc0mem with h | h
      · left; rw [hkeys1, h]; simp
      · right; exact h)
  refine ⟨t1, tl', htl, ?_, ?_⟩
  · rw [hpairs, List.foldl_cons, ck, hkeys1]
    rfl
  · rw [hpairs, List.foldl_cons, hnames]
    have hp0succ : ((pairsOf (t1 :: tl') c0).foldl addPair
        (addPair emptyTGraph (p0, t1))).succOf p0 = [t1] := by
      rw [cf p0 hp0]
      exact hsucc1
    exact ⟨hp0succ, cc⟩

/-! ## Traversal analysis of the chain-into-cycle family (towards claim C1) -/

theorem fam_preorder (g : TGraph) (p0 c0 t1 : String) (pt ct tl' : List String)
    (htl : pt ++ c0 :: ct = t1 :: tl')
    (hk : g.keys = t1 :: p0 :: tl')
    (hchain : succChain g (((p0 :: pt) ++ c0 :: ct) ++ [c0]))
    (hnd : ((p0 :: pt) ++ c0 :: ct).Nodup) :
    preorder g = (t1 :: tl') ++ [p0] := by
  have hnames : (p0 :: pt) ++ c0 :: ct = p0 :: t1 :: tl' := by
    rw [List.cons_append, htl]
  have hG : graphFuel g = (t1 :: tl').length + 2 := by
    rw [graphFuel, hk]
    simp
  have hchain' : succChain g (p0 :: ((t1 :: tl') ++ [c0])) := by
    rw [hnames] at hchain
    exact hchain
  have hndtl : ((t1 :: tl')).Nodup := by
    rw [hnames] at hnd
    exact (List.nodup_cons.mp hnd).2
  have hp0 : p0 ∉ t1 :: tl' := by
    rw [hnames] at hnd
    exact (List.nodup_cons.mp hnd).1
  have hc0 : c0 ∈ t1 :: tl' := by
    rw [← htl]
    simp
  rw [preorder, hk]
  simp only [List.foldl_cons]
  have hstep1 : dfsFrom g (graphFuel g) t1 [] = (t1 :: tl') := by
    have := dfs_walk g c0 tl' t1 [] (graphFuel g)
      (succChain_tail g _ p0 hchain')
      (by simpa using hc0)
      (by simpa using hndtl)
      (by rw [hG]; simp)
    simpa using this
  rw [hstep1]
  have hstep2 : dfsFrom g (graphFuel g) p0 (t1 :: tl') = (t1 :: tl') ++ [p0] := by
    refine dfs_walk g t1 [] p0 (t1 :: tl') (graphFuel g) ⟨hchain'.1, trivial⟩
      (by simp) ?_ (by rw [hG]; simp)
    have hperm : ((t1 :: tl') ++ [p0]).Perm (p0 :: t1 :: tl') :=
      List.perm_append_singleton p0 (t1 :: tl')
    rw [hperm.nodup_iff, ← hnames]
    exact hnd
  rw [hstep2]
  refine foldl_dfs_visited g (graphFuel g) (by rw [hG]; omega) tl' _ ?_
  intro r hr
  simp [hr]

theorem fam_reach_suffix (g : TGraph) (p0 c0 : String) (pt ct : List String)
    (hchain : succChain g (((p0 :: pt) ++ c0 :: ct) ++ [c0]))
    (hnd : ((p0 :: pt) ++ c0 :: ct).Nodup)
    (hG : (p0 :: pt ++ c0 :: ct).length < graphFuel g)
    (pre : List String) (x : String) (s' : List String)
    (hsplit : (p0 :: pt) ++ c0 :: ct = pre ++ x :: s') (hc : c0 ∈ x :: s') :
    reachList g x = x :: s' := by
  have hch : succChain g ((x :: s') ++ [c0]) := by
    refine succChain_append_right g pre _ ?_
    have : ((p0 :: pt) ++ c0 :: ct) ++ [c0] = pre ++ ((x :: s') ++ [c0]) := by
      rw [hsplit]
      simp
    rw [← this]
    exact hchain
  have hndx : (x :: s').Nodup := by
    have hsub : (x :: s').Sublist ((p0 :: pt) ++ c0 :: ct) := by
      rw [hsplit]
      exact List.sublist_append_right pre (x :: s')
    exact hsub.nodup hnd
  have hlen : (x :: s').length < graphFuel g := by
    have h0 : p0 :: (pt ++ c0 :: ct) = pre ++ x :: s' := hsplit
    have hlenq : (p0 :: (pt ++ c0 :: ct)).length = pre.length + (x :: s').length := by
      rw [h0]
      simp
    simp only [List.cons_append] at hG
    omega
  have := dfs_walk g c0 s' x [] (graphFuel g) hch (by simpa using hc)
    (by simpa using hndx) hlen
  simpa [reachList] using this

theorem fam_reach_cycle (g : TGraph) (p0 c0 : String) (pt ct : List String)
    (hchain : succChain g (((p0 :: pt) ++ c0 :: ct) ++ [c0]))
    (hnd : ((p0 :: pt) ++ c0 :: ct).Nodup)
    (hG : (p0 :: pt ++ c0 :: ct).length < graphFuel g)
    (cs₁ : List String) (x : String) (cs₂ : List String)
    (hsplit : c0 :: ct = cs₁ ++ x :: cs₂) :
    reachList g x = (x :: cs₂) ++ cs₁ := by
  cases cs₁ with
  | nil =>
    obtain ⟨rfl, rfl⟩ : c0 = x ∧ ct = cs₂ := by simpa using hsplit
    simp only [List.append_nil]
    exact fam_reach_suffix g p0 c0 pt ct hchain hnd hG (p0 :: pt) c0 ct rfl (by simp)
  | cons c0' cs₁' =>
    obtain ⟨rfl, htail⟩ : c0 = c0' ∧ ct = cs₁' ++ x :: cs₂ := by simpa using hsplit
    have hA : succChain g ((x :: cs₂) ++ [c0]) := by
      refine succChain_append_right g ((p0 :: pt) ++ c0 :: cs₁') _ ?_
      have heq : (((p0 :: pt) ++ c0 :: ct) ++ [c0])
          = ((p0 :: pt) ++ c0 :: cs₁') ++ ((x :: cs₂) ++ [c0]) := by
        rw [htail]
        simp
      rw [← heq]
      exact hchain
    have hB : succChain g ((c0 :: cs₁') ++ [x]) := by
      have hnchain : succChain g ((p0 :: pt) ++ c0 :: ct) :=
        succChain_append_left g _ [c0] hchain
      have hdecomp : (p0 :: pt) ++ c0 :: ct
          = (p0 :: pt) ++ (((c0 :: cs₁') ++ [x]) ++ cs₂) := by
        rw [htail]
        simp
      rw [hdecomp] at hnchain
      exact succChain_append_left g _ cs₂ (succChain_append_right g _ _ hnchain)
    have hglue : succChain g ((x :: cs₂) ++ c0 :: (cs₁' ++ [x])) :=
      succChain_glue g c0 (x :: cs₂) (cs₁' ++ [x]) hA hB
    have hndw : ((x :: (cs₂ ++ c0 :: cs₁'))).Nodup := by
      have hcsnd : (c0 :: ct).Nodup := by
        have hsub : (c0 :: ct).Sublist ((p0 :: pt) ++ c0 :: ct) :=
          List.sublist_append_right _ _
        exact hsub.nodup hnd
      have hperm : ((c0 :: cs₁') ++ x :: cs₂).Perm ((x :: cs₂) ++ (c0 :: cs₁')) :=
        List.perm_append_comm
      have hthis : ((x :: cs₂) ++ (c0 :: cs₁')).Nodup := by
        rw [← hperm.nodup_iff, ← hsplit]
        exact hcsnd
      simpa using hthis
    have hlen : (x :: (cs₂ ++ c0 :: cs₁')).length < graphFuel g := by
      have h1 : ct.length = cs₁'.length + (cs₂.length + 1) := by
        rw [htail]
        simp
      simp only [List.cons_append, List.length_cons, List.length_append] at hG ⊢
      omega
    have hwalk := dfs_walk g x (cs₂ ++ c0 :: cs₁') x [] (graphFuel g)
      (by
        have heq2 : (x :: (cs₂ ++ c0 :: cs₁')) ++ [x]
            = (x :: cs₂) ++ c0 :: (cs₁' ++ [x]) := by
          simp
        rw [heq2]
        exact hglue)
      (by simp)
      (by simpa using hndw)
      hlen
    rw [reachList, hwalk]
    simp

theorem filter_eq_singleton_of (p : String → Bool) :
    ∀ (l : List String) (x : String), l.Nodup → x ∈ l →
      (∀ w ∈ l, p w = true ↔ w = x) → l.filter p = [x] := by
  intro l
  induction l with
  | nil => intro x _ hx _; exact absurd hx (List.not_mem_nil x)
  | cons a l ih =>
    intro x hnd hx hp
    by_cases hax : a = x
    · subst hax
      rw [List.filter_cons_of_pos (by rw [hp a (List.mem_cons_self a l)])]
      have hrest : l.filter p = [] := by
        refine List.filter_eq_nil_iff.mpr ?_
        intro w hw hpw
        have : w = a := (hp w (List.mem_cons_of_mem a hw)).mp hpw
        rw [this] at hw
        exact (List.nodup_cons.mp hnd).1 hw
      rw [hrest]
    · rw [List.filter_cons_of_neg (by
        intro hpa
        exact hax ((hp a (List.mem_cons_self a l)).mp hpa))]
      refine ih x (List.nodup_cons.mp hnd).2 ?_ ?_
      · rcases List.mem_cons.mp hx with h | h
        · exact absurd h.symm hax
        · exact h
      · intro w hw
        exact hp w (List.mem_cons_of_mem a hw)

theorem fam_hG (g : TGraph) (p0 t1 : String) (tl' : List String)
    (hk : g.keys = t1 :: p0 :: tl') (base : List String)
    (hbase : base.length = (t1 :: tl').length + 1) :
    base.length < graphFuel g := by
  rw [graphFuel, hk]
  simp only [List.length_cons] at hbase ⊢
  omega

theorem fam_scc_c0 (g : TGraph) (p0 c0 t1 : String) (pt ct tl' : List String)
    (htl : pt ++ c0 :: ct = t1 :: tl')
    (hk : g.keys = t1 :: p0 :: tl')
    (hchain : succChain g (((p0 :: pt) ++ c0 :: ct) ++ [c0]))
    (hnd : ((p0 :: pt) ++ c0 :: ct).Nodup) :
    sccMembers g c0 = c0 :: ct := by
  have hG : (p0 :: pt ++ c0 :: ct).length < graphFuel g := by
    refine fam_hG g p0 t1 tl' hk _ ?_
    simp only [List.cons_append, List.length_cons, List.length_append, ← htl]
  have hpre := fam_preorder g p0 c0 t1 pt ct tl' htl hk hchain hnd
  have hreach : reachList g c0 = c0 :: ct := by
    have := fam_reach_cycle g p0 c0 pt ct hchain hnd hG [] c0 ct rfl
    simpa using this
  have hdisj : ∀ w ∈ p0 :: pt, w ∉ c0 :: ct := by
    intro w hw hwc
    rw [List.nodup_append] at hnd
    exact hnd.2.2 hw hwc
  rw [sccMembers, hpre, ← htl]
  rw [show (pt ++ c0 :: ct) ++ [p0] = pt ++ ((c0 :: ct) ++ [p0]) by simp]
  rw [List.filter_append, List.filter_append]
  have hseg1 : pt.filter (fun w =>
      decide (w ∈ reachList g c0) && decide (c0 ∈ reachList g w)) = [] := by
    refine List.filter_eq_nil_iff.mpr ?_
    intro w hw hpw
    rw [hreach] at hpw
    simp only [Bool.and_eq_true, decide_eq_true_eq] at hpw
    exact hdisj w (List.mem_cons_of_mem p0 hw) hpw.1
  have hseg2 : (c0 :: ct).filter (fun w =>
      decide (w ∈ reachList g c0) && decide (c0 ∈ reachList g w)) = c0 :: ct := by
    refine List.filter_eq_self.mpr ?_
    intro w hw
    obtain ⟨cs₁, cs₂, hcs⟩ := List.mem_iff_append.mp hw
    have hrw : reachList g w = (w :: cs₂) ++ cs₁ :=
      fam_reach_cycle g p0 c0 pt ct hchain hnd hG cs₁ w cs₂ hcs
    simp only [Bool.and_eq_true, decide_eq_true_eq]
    refine ⟨by rw [hreach]; exact hw, ?_⟩
    rw [hrw]
    have hperm : (cs₁ ++ w :: cs₂).Perm ((w :: cs₂) ++ cs₁) := List.perm_append_comm
    rw [← hperm.mem_iff, ← hcs]
    simp
  have hseg3 : [p0].filter (fun w =>
      decide (w ∈ reachList g c0) && decide (c0 ∈ reachList g w)) = [] := by
    refine List.filter_eq_nil_iff.mpr ?_
    intro w hw hpw
    simp only [List.mem_singleton] at hw
    subst hw
    rw [hreach] at hpw
    simp only [Bool.and_eq_true, decide_eq_true_eq] at hpw
    exact hdisj w (List.mem_cons_self _ _) hpw.1
  rw [hseg1, hseg2, hseg3]
  simp

theorem fam_scc_chain (g : TGraph) (p0 c0 t1 : String) (pt ct tl' : List String)
    (htl : pt ++ c0 :: ct = t1 :: tl')
    (hk : g.keys = t1 :: p0 :: tl')
    (hchain : succChain g (((p0 :: pt) ++ c0 :: ct) ++ [c0]))
    (hnd : ((p0 :: pt) ++ c0 :: ct).Nodup)
    (x : String) (hx : x ∈ p0 :: pt) :
    sccMembers g x = [x] := by
  have hG : (p0 :: pt ++ c0 :: ct).length < graphFuel g := by
    refine fam_hG g p0 t1 tl' hk _ ?_
    simp only [List.cons_append, List.length_cons, List.length_append, ← htl]
  have hpre := fam_preorder g p0 c0 t1 pt ct tl' htl hk hchain hnd
  have hnames : (p0 :: pt) ++ c0 :: ct = p0 :: t1 :: tl' := by
    rw [List.cons_append, htl]
  obtain ⟨ps₁, ps₂, hps⟩ := List.mem_iff_append.mp hx
  have hsplitx : (p0 :: pt) ++ c0 :: ct = ps₁ ++ x :: (ps₂ ++ c0 :: ct) := by
    rw [hps]
    simp
  have hreachx : reachList g x = x :: (ps₂ ++ c0 :: ct) :=
    fam_reach_suffix g p0 c0 pt ct hchain hnd hG ps₁ x _ hsplitx (by simp)
  have hndps : (p0 :: pt).Nodup := (List.nodup_append.mp hnd).1
  have hdisj : ∀ w ∈ p0 :: pt, w ∉ c0 :: ct :=
    fun w hw hwc => (List.nodup_append.mp hnd).2.2 hw hwc
  have hxps2 : x ∉ ps₂ := by
    rw [hps] at hndps
    have h2 := (List.nodup_append.mp hndps).2.1
    exact (List.nodup_cons.mp h2).1
  have hxcs : x ∉ c0 :: ct := hdisj x hx
  have hpnd : (preorder g).Nodup := by
    rw [hpre]
    have hperm : ((t1 :: tl') ++ [p0]).Perm (p0 :: t1 :: tl') :=
      List.perm_append_singleton p0 (t1 :: tl')
    rw [hperm.nodup_iff, ← hnames]
    exact hnd
  have hxpre : x ∈ preorder g := by
    rw [hpre]
    have hperm : ((t1 :: tl') ++ [p0]).Perm (p0 :: t1 :: tl') :=
      List.perm_append_singleton p0 (t1 :: tl')
    rw [hperm.mem_iff, ← hnames]
    exact List.mem_append_left _ hx
  rw [sccMembers]
  refine filter_eq_singleton_of _ (preorder g) x hpnd hxpre ?_
  intro w hw
  constructor
  · intro hpw
    simp only [Bool.and_eq_true, decide_eq_true_eq] at hpw
    obtain ⟨hw1, hw2⟩ := hpw
    rw [hreachx] at hw1
    rcases List.mem_cons.mp hw1 with h | h
    · exact h
    rcases List.mem_append.mp h with hwp | hwc
    · obtain ⟨a, b, hab⟩ := List.mem_iff_append.mp hwp
      have hsplitw : (p0 :: pt) ++ c0 :: ct = (ps₁ ++ x :: a) ++ w :: (b ++ c0 :: ct) := by
        rw [hps, hab]
        simp
      have hreachw : reachList g w = w :: (b ++ c0 :: ct) :=
        fam_reach_suffix g p0 c0 pt ct hchain hnd hG _ w _ hsplitw (by simp)
      rw [hreachw] at hw2
      exfalso
      rcases List.mem_cons.mp hw2 with hxw | hxw
      · exact hxps2 (hxw ▸ hwp)
      rcases List.mem_append.mp hxw with hxb | hxcs'
      · refine hxps2 ?_
        rw [hab]
        simp [hxb]
      · exact hxcs hxcs'
    · obtain ⟨cs₁, cs₂, hcs⟩ := List.mem_iff_append.mp hwc
      have hreachw : reachList g w = (w :: cs₂) ++ cs₁ :=
        fam_reach_cycle g p0 c0 pt ct hchain hnd hG cs₁ w cs₂ hcs
      rw [hreachw] at hw2
      exfalso
      refine hxcs ?_
      have hperm : (cs₁ ++ w :: cs₂).Perm ((w :: cs₂) ++ cs₁) := List.perm_append_comm
      rw [hcs]
      exact hperm.mem_iff.mpr hw2
  · intro hwx
    subst hwx
    simp only [Bool.and_eq_true, decide_eq_true_eq]
    rw [hreachx]
    simp

theorem fam_no_selfloop_chain (g : TGraph) (p0 c0 : String) (pt ct : List String)
    (hchain : succChain g (((p0 :: pt) ++ c0 :: ct) ++ [c0]))
    (hnd : ((p0 :: pt) ++ c0 :: ct).Nodup)
    (x : String) (hx : x ∈ p0 :: pt) :
    hasSelfLoop g x = false := by
  obtain ⟨ps₁, ps₂, hps⟩ := List.mem_iff_append.mp hx
  have hndps : (p0 :: pt).Nodup := (List.nodup_append.mp hnd).1
  have hdisj : ∀ w ∈ p0 :: pt, w ∉ c0 :: ct :=
    fun w hw hwc => (List.nodup_append.mp hnd).2.2 hw hwc
  have hxps2 : x ∉ ps₂ := by
    rw [hps] at hndps
    have h2 := (List.nodup_append.mp hndps).2.1
    exact (List.nodup_cons.mp h2).1
  have hxcs : x ∉ c0 :: ct := hdisj x hx
  have hch : succChain g ((x :: (ps₂ ++ c0 :: ct)) ++ [c0]) := by
    refine succChain_append_right g ps₁ _ ?_
    have heq : ((p0 :: pt) ++ c0 :: ct) ++ [c0]
        = ps₁ ++ ((x :: (ps₂ ++ c0 :: ct)) ++ [c0]) := by
      rw [hps]
      simp
    rw [← heq]
    exact hchain
  cases hsc : ps₂ ++ c0 :: ct with
  | nil => exact absurd hsc (by simp)
  | cons y l2 =>
    rw [hsc] at hch
    have hsy : g.succOf x = [y] := hch.1
    have hymem : y ∈ ps₂ ++ c0 :: ct := by
      rw [hsc]
      exact List.mem_cons_self y l2
    have hxy : x ≠ y := by
      intro he
      rcases List.mem_append.mp hymem with hyp | hyc
      · exact hxps2 (he ▸ hyp)
      · exact hxcs (he ▸ hyc)
    simp [hasSelfLoop, TGraph.succOf] at hsy ⊢
    rw [show g.succs x = [y] from hsy]
    simp [hxy]

theorem cycFold_skip_consumed (g : TGraph) :
    ∀ (l : List String) (acc : List (List String) × List String),
      (∀ x ∈ l, x ∈ acc.2) →
      (l.foldl (fun (acc : List (List String) × List String) v =>
        if v ∈ acc.2 then acc
        else
          let scc := sccMembers g v
          if 1 < scc.length || hasSelfLoop g v then
            (acc.1 ++ [scc.reverse], acc.2 ++ scc)
          else
            (acc.1, acc.2 ++ scc)) acc) = acc := by
  intro l
  induction l with
  | nil => intro acc _; rfl
  | cons v l ih =>
    intro acc h
    rw [List.foldl_cons]
    rw [if_pos (h v (List.mem_cons_self v l))]
    exact ih acc (fun x hx => h x (List.mem_cons_of_mem v hx))

theorem cycFold_singletons (g : TGraph) :
    ∀ (l : List String) (acc : List (List String) × List String),
      (∀ x ∈ l, sccMembers g x = [x] ∧ hasSelfLoop g x = false) →
      (∀ x ∈ l, x ∉ acc.2) → l.Nodup →
      (l.foldl (fun (acc : List (List String) × List String) v =>
        if v ∈ acc.2 then acc
        else
          let scc := sccMembers g v
          if 1 < scc.length || hasSelfLoop g v then
            (acc.1 ++ [scc.reverse], acc.2 ++ scc)
          else
            (acc.1, acc.2 ++ scc)) acc) = (acc.1, acc.2 ++ l) := by
  intro l
  induction l with
  | nil => intro acc _ _ _; simp
  | cons v l ih =>
    intro acc hscc hfresh hnd
    rw [List.foldl_cons]
    rw [if_neg (hfresh v (List.mem_cons_self v l))]
    have hv := hscc v (List.mem_cons_self v l)
    simp only [hv.1, hv.2]
    rw [if_neg (by simp)]
    have := ih (acc.1, acc.2 ++ [v])
      (fun x hx => hscc x (List.mem_cons_of_mem v hx))
      (by
        intro x hx
        simp only [List.mem_append, List.mem_singleton]
        rintro (h | h)
        · exact hfresh x (List.mem_cons_of_mem v hx) h
        · rw [h] at hx
          exact (List.nodup_cons.mp hnd).1 hx)
      (List.nodup_cons.mp hnd).2
    rw [this]
    simp

theorem fam_getCycles (g : TGraph) (p0 c0 t1 : String) (pt ct tl' : List String)
    (htl : pt ++ c0 :: ct = t1 :: tl')
    (hk : g.keys = t1 :: p0 :: tl')
    (hchain : succChain g (((p0 :: pt) ++ c0 :: ct) ++ [c0]))
    (hnd : ((p0 :: pt) ++ c0 :: ct).Nodup)
    (hct : ct ≠ []) :
    g.getCycles = [(c0 :: ct).reverse] := by
  have hpre := fam_preorder g p0 c0 t1 pt ct tl' htl hk hchain hnd
  have hsccc0 := fam_scc_c0 g p0 c0 t1 pt ct tl' htl hk hchain hnd
  have hdisj : ∀ w ∈ p0 :: pt, w ∉ c0 :: ct :=
    fun w hw hwc => (List.nodup_append.mp hnd).2.2 hw hwc
  have hndps : (p0 :: pt).Nodup := (List.nodup_append.mp hnd).1
  rw [TGraph.getCycles, hpre, ← htl]
  rw [show (pt ++ c0 :: ct) ++ [p0] = pt ++ (c0 :: (ct ++ [p0])) by simp]
  rw [List.foldl_append]
  rw [cycFold_singletons g pt ([], [])
    (fun x hx => ⟨fam_scc_chain g p0 c0 t1 pt ct tl' htl hk hchain hnd x
        (List.mem_cons_of_mem p0 hx),
      fam_no_selfloop_chain g p0 c0 pt ct hchain hnd x (List.mem_cons_of_mem p0 hx)⟩)
    (fun x _ hx => (List.not_mem_nil x) hx)
    (List.nodup_cons.mp hndps).2]
  rw [List.foldl_cons]
  rw [if_neg (by
    simp only [List.nil_append]
    intro hmem
    exact hdisj c0 (List.mem_cons_of_mem p0 hmem) (List.mem_cons_self c0 ct))]
  simp only [hsccc0]
  rw [if_pos (by
    have h1 : 1 ≤ ct.length := by
      cases ct with
      | nil => exact absurd rfl hct
      | cons a b => simp
    simp only [Bool.or_eq_true, decide_eq_true_eq, List.length_cons]
    left
    omega)]
  rw [List.foldl_append]
  rw [cycFold_skip_consumed g ct _ (by
    intro x hx
    simp [hx])]
  simp only [List.foldl_cons, List.foldl_nil]
  rw [if_neg (by
    simp only [List.mem_append, List.nil_append, List.mem_cons]
    rintro (hp | hp | hp)
    · exact (List.nodup_cons.mp hndps).1 hp
    · exact hdisj p0 (List.mem_cons_self p0 pt) (by rw [hp]; exact List.mem_cons_self c0 ct)
    · exact hdisj p0 (List.mem_cons_self p0 pt) (List.mem_cons_of_mem c0 hp))]
  rw [fam_scc_chain g p0 c0 t1 pt ct tl' htl hk hchain hnd p0 (List.mem_cons_self p0 pt)]
  rw [fam_no_selfloop_chain g p0 c0 pt ct hchain hnd p0 (List.mem_cons_self p0 pt)]
  rw [if_neg (by simp)]
  simp

/-- Claim C1: for every acyclic chain of modules leading into one
elementary cycle, the finder returns exactly that cycle, and the pass with
default options emits exactly one warning rendering the cycle's members in
order, closed by repeating the first member, with the chain prefix
excluded; no errors and no callback invocations occur. -/
theorem chain_cycle_single_report (rel : String → String → String) (cwd : String)
    (p0 c0 c1 : String) (pt ct' : List String)
    (hnd : ((p0 :: pt) ++ c0 :: c1 :: ct').Nodup) :
    (buildGraph false (chainCycleModules (p0 :: pt) (c0 :: c1 :: ct'))).getCycles
      = [(c0 :: c1 :: ct').reverse]
    ∧ (runPass (defaultOptions cwd) rel
        (chainCycleModules (p0 :: pt) (c0 :: c1 :: ct'))).warnings
      = [defaultMessage (((c0 :: c1 :: ct').map (rel cwd)) ++ [rel cwd c0])]
    ∧ (runPass (defaultOptions cwd) rel
        (chainCycleModules (p0 :: pt) (c0 :: c1 :: ct'))).errors = []
    ∧ (runPass (defaultOptions cwd) rel
        (chainCycleModules (p0 :: pt) (c0 :: c1 :: ct'))).invocations = [] := by
  have hbg := chainCycle_buildGraph (p0 :: pt) c0 (c1 :: ct') (by simp) (by simp)
  obtain ⟨t1, tl', htl, hk, hchain⟩ := chainCycle_graph_spec p0 c0 pt (c1 :: ct') hnd
  rw [← hbg] at hk hchain
  have hcyc : (buildGraph false
      (chainCycleModules (p0 :: pt) (c0 :: c1 :: ct'))).getCycles
      = [(c0 :: c1 :: ct').reverse] :=
    fam_getCycles _ p0 c0 t1 pt (c1 :: ct') tl' htl hk hchain hnd (by simp)
  have hexc : everyPartExcluded (defaultOptions cwd) ((c0 :: c1 :: ct').reverse) = false := by
    simp [everyPartExcluded, defaultOptions]
  have hclose : closeRender rel cwd ((c0 :: c1 :: ct').reverse)
      = ((c0 :: c1 :: ct').map (rel cwd)) ++ [rel cwd c0] := by
    unfold closeRender
    rw [List.map_reverse, List.reverse_reverse]
    rfl
  refine ⟨hcyc, ?_, ?_, ?_⟩
  · rw [runPass_warnings_default _ rel _ rfl rfl rfl]
    have hfe : (defaultOptions cwd).failOnError = false := rfl
    rw [hfe]
    have haa : (defaultOptions cwd).allowAsyncCycles = false := rfl
    rw [haa, hcyc]
    rw [List.filter_cons_of_pos (by rw [hexc]; rfl), List.filter_nil]
    rw [List.map_cons, List.map_nil]
    rw [show (defaultOptions cwd).cwd = cwd from rfl, hclose]
    simp
  · rw [runPass_errors_default _ rel _ rfl rfl rfl]
    have hfe : (defaultOptions cwd).failOnError = false := rfl
    rw [hfe]
    simp
  · exact runPass_invocations_none _ rel _ rfl

/-- Witness for claim C1 at the concrete d, e, f, g scenario of the
repository's tests. -/
theorem chain_cycle_single_report_witness :
    ((["d"] ++ ["e", "f", "g"]).Nodup)
    ∧ (runPass (defaultOptions "") (fun _ s => s)
        (chainCycleModules ["d"] ["e", "f", "g"])).warnings
      = [defaultMessage ["e", "f", "g", "e"]] := by
  refine ⟨by decide, ?_⟩
  have h := (chain_cycle_single_report (fun _ s => s) "" "d" "e" "f" [] ["g"]
    (by decide)).2.1
  exact h
